import Mathlib

/-!
Verification of the columnar aggregation kernels in
`src/arrow-arith/src/aggregate.rs` (arrow-rs).

The embedding models a primitive array as a values buffer (`List α`)
together with an optional validity bitmap (`List Bool`, one bit per slot,
`true` = valid).  The bitmap word iterator (`bit_chunks`), the
valid-index iterator, the boolean true/false counters, the dictionary
accessor, and the per-type arithmetic primitives (`add_wrapping`,
`add_checked`, float comparison) are external collaborators of the
aggregation crate; they are modelled from the spec where noted.
-/

namespace ArrowAggregate

/-! ## Chunking (Rust `slice::chunks_exact`) -/

/-- Auxiliary structural recursion: split off `n` chunks of length `k` from
the front of `l`, returning the chunks and the remaining tail. -/
def chunksExactAux (k : Nat) : Nat → List α → List (List α) × List α
  | 0, l => ([], l)
  | n + 1, l =>
    let rest := chunksExactAux k n (l.drop k)
    (l.take k :: rest.1, rest.2)

/-- Rust `slice::chunks_exact(k)`: the list of full `k`-element chunks of `l`
(`l.length / k` of them) together with the shorter-than-`k` remainder. -/
def chunksExact (k : Nat) (l : List α) : List (List α) × List α :=
  chunksExactAux k (l.length / k) l

theorem chunksExactAux_snd (k : Nat) :
    ∀ (n : Nat) (l : List α), (chunksExactAux k n l).2 = l.drop (n * k) := by
  intro n
  induction n with
  | zero => intro l; simp [chunksExactAux]
  | succ n ih =>
      intro l
      simp only [chunksExactAux, ih, List.drop_drop]
      rw [Nat.succ_mul, Nat.add_comm]

theorem chunksExactAux_fst_join (k : Nat) :
    ∀ (n : Nat) (l : List α), n * k ≤ l.length →
      (chunksExactAux k n l).1.join = l.take (n * k) := by
  intro n
  induction n with
  | zero => intro l _; simp [chunksExactAux]
  | succ n ih =>
      intro l h
      have h' : n * k + k ≤ l.length := by
        have hnk : (n + 1) * k = n * k + k := by ring
        omega
      have hdrop : n * k ≤ (l.drop k).length := by
        simp only [List.length_drop]; omega
      simp only [chunksExactAux, List.join, List.flatten_cons, ih (l.drop k) hdrop]
      rw [Nat.succ_mul, Nat.add_comm (n * k) k, List.take_add]

theorem chunksExactAux_mem_length (k : Nat) :
    ∀ (n : Nat) (l : List α), n * k ≤ l.length →
      ∀ c ∈ (chunksExactAux k n l).1, c.length = k := by
  intro n
  induction n with
  | zero => intro l _ c hc; simp [chunksExactAux] at hc
  | succ n ih =>
      intro l h c hc
      have h' : n * k + k ≤ l.length := by
        have hnk : (n + 1) * k = n * k + k := by ring
        omega
      simp only [chunksExactAux, List.mem_cons] at hc
      rcases hc with hc | hc
      · subst hc; simp only [List.length_take]; omega
      · exact ih (l.drop k) (by simp only [List.length_drop]; omega) c hc

theorem chunksExact_snd (k : Nat) (l : List α) :
    (chunksExact k l).2 = l.drop (l.length / k * k) :=
  chunksExactAux_snd k _ l

theorem chunksExact_fst_join (k : Nat) (l : List α) :
    (chunksExact k l).1.join = l.take (l.length / k * k) :=
  chunksExactAux_fst_join k _ l (Nat.div_mul_le_self _ _)

theorem chunksExact_mem_length (k : Nat) (l : List α) :
    ∀ c ∈ (chunksExact k l).1, c.length = k :=
  chunksExactAux_mem_length k _ l (Nat.div_mul_le_self _ _)

/-- Peeling one full chunk when at least `k` elements remain. -/
theorem chunksExact_peel (k : Nat) (l : List α) (hk : 0 < k) (hlen : k ≤ l.length) :
    chunksExact k l =
      (l.take k :: (chunksExact k (l.drop k)).1, (chunksExact k (l.drop k)).2) := by
  have hdiv : l.length / k = (l.drop k).length / k + 1 := by
    rw [List.length_drop]
    exact Nat.div_eq_sub_div hk hlen
  simp only [chunksExact, hdiv, chunksExactAux]

/-- No full chunk fits. -/
theorem chunksExact_small (k : Nat) (l : List α) (h : l.length < k) :
    chunksExact k l = ([], l) := by
  simp only [chunksExact, Nat.div_eq_of_lt h, chunksExactAux]

/-! ## Validity bitmap words.

Modelled from the spec: the validity bitmap view exposes block iteration
yielding full 64-bit words plus a final partial remainder word; bit `i` of a
word is the validity of the corresponding slot (1 = valid). -/

/-- Pack a list of validity bits into a natural-number word, bit `i` of the
word being entry `i` of the list (LSB first). -/
def bitsToWord : List Bool → Nat
  | [] => 0
  | b :: bs => (if b then 1 else 0) + 2 * bitsToWord bs

/-- Modelled from the spec: `BitChunks::iter`, the full 64-bit words of the
validity bitmap window. -/
def fullWords (bits : List Bool) : List Nat :=
  ((chunksExact 64 bits).1).map bitsToWord

/-- Modelled from the spec: `BitChunks::remainder_bits`, the final partial
word holding the last `len % 64` validity bits. -/
def remWord (bits : List Bool) : Nat :=
  bitsToWord ((chunksExact 64 bits).2)

theorem testBit_bitsToWord (bits : List Bool) :
    ∀ i, (bitsToWord bits).testBit i = bits.getD i false := by
  induction bits with
  | nil => intro i; simp [bitsToWord, Nat.zero_testBit]
  | cons b bs ih =>
      intro i
      cases i with
      | zero =>
          simp only [bitsToWord, Nat.testBit_zero, List.getD_cons_zero]
          cases b <;> simp [Nat.add_mul_mod_self_left]
      | succ i =>
          have hdiv : ((if b then 1 else 0) + 2 * bitsToWord bs) / 2 = bitsToWord bs := by
            cases b <;> simp <;> omega
          simp only [bitsToWord, Nat.testBit_succ, hdiv, List.getD_cons_succ]
          exact ih i

theorem bitsToWord_lt (bits : List Bool) : bitsToWord bits < 2 ^ bits.length := by
  induction bits with
  | nil => simp [bitsToWord]
  | cons b bs ih =>
      simp only [bitsToWord, List.length_cons, Nat.pow_succ]
      cases b <;> simp <;> omega

theorem bitsToWord_drop (bits : List Bool) :
    ∀ k, bitsToWord (bits.drop k) = bitsToWord bits >>> k := by
  induction bits with
  | nil => intro k; simp [bitsToWord, List.drop_nil]
  | cons b bs ih =>
      intro k
      cases k with
      | zero => simp
      | succ k =>
          have h2 : ((if b then 1 else 0) + 2 * bitsToWord bs) >>> 1 = bitsToWord bs := by
            rw [Nat.shiftRight_eq_div_pow]
            cases b <;> simp <;> omega
          have : (1 : Nat) + k = k + 1 := Nat.add_comm 1 k
          calc bitsToWord ((b :: bs).drop (k + 1)) = bitsToWord (bs.drop k) := rfl
          _ = bitsToWord bs >>> k := ih k
          _ = (bitsToWord (b :: bs) >>> 1) >>> k := by rw [bitsToWord]; rw [h2]
          _ = bitsToWord (b :: bs) >>> (1 + k) := (Nat.shiftRight_add _ 1 k).symm
          _ = bitsToWord (b :: bs) >>> (k + 1) := by rw [this]

/-- The mask test written by the Rust code, as a proposition on the bit. -/
theorem and_shift_eq_zero (m i : Nat) :
    (m &&& (1 <<< i) == 0) = !(m.testBit i) := by
  rw [Nat.shiftLeft_eq, Nat.one_mul, Nat.and_two_pow]
  cases h : m.testBit i <;> simp [h, (Nat.two_pow_pos i).ne']

theorem and_shift_ne_zero (m i : Nat) :
    (m &&& (1 <<< i) != 0) = m.testBit i := by
  rw [bne, and_shift_eq_zero]
  cases m.testBit i <;> rfl

/-! ## Arrays -/

/-- A primitive array: a values buffer of the array's window and an optional
validity bitmap over the same window (`true` = valid).  Slicing mechanics
are external; a sliced view is represented by the windowed buffers
themselves. -/
structure PrimitiveArray (α : Type) where
  values : List α
  validity : Option (List Bool)

def PrimitiveArray.len (a : PrimitiveArray α) : Nat := a.values.length

/-- Modelled from the spec: `Array::null_count`, the number of unset
validity bits (0 when no bitmap is present). -/
def PrimitiveArray.null_count (a : PrimitiveArray α) : Nat :=
  match a.validity with
  | none => 0
  | some bits => bits.count false

/-- Well-formedness: when a validity bitmap is present it has one bit per
slot. -/
def PrimitiveArray.wf (a : PrimitiveArray α) : Bool :=
  match a.validity with
  | none => true
  | some bits => bits.length == a.values.length

theorem PrimitiveArray.wf_some {a : PrimitiveArray α} {bits : List Bool}
    (hwf : a.wf = true) (h : a.validity = some bits) :
    bits.length = a.values.length := by
  unfold PrimitiveArray.wf at hwf
  rw [h] at hwf
  simpa using hwf

/-- The valid (non-null) values of a zipped (values, validity) window, in
index order. -/
def zipValids : List α → List Bool → List α
  | v :: vs, b :: bs => (if b then [v] else []) ++ zipValids vs bs
  | _, _ => []

/-- The array's logical valid values in index order (all values when no
bitmap is present). -/
def PrimitiveArray.validVals (a : PrimitiveArray α) : List α :=
  match a.validity with
  | none => a.values
  | some bits => zipValids a.values bits

theorem zipValids_nil_right (l : List α) : zipValids l [] = [] := by
  cases l <;> rfl

theorem zipValids_append {v₁ v₂ : List α} {b₁ b₂ : List Bool}
    (h : v₁.length = b₁.length) :
    zipValids (v₁ ++ v₂) (b₁ ++ b₂) = zipValids v₁ b₁ ++ zipValids v₂ b₂ := by
  induction v₁ generalizing b₁ with
  | nil =>
      cases b₁ with
      | nil => simp [zipValids]
      | cons b bs => simp at h
  | cons v vs ih =>
      cases b₁ with
      | nil => simp at h
      | cons b bs =>
          simp only [List.length_cons, Nat.succ.injEq] at h
          simp only [List.cons_append, zipValids, List.append_eq, ih h, List.append_assoc]

theorem zipValids_split (m : Nat) {vals : List α} {bits : List Bool}
    (h : vals.length = bits.length) :
    zipValids vals bits =
      zipValids (vals.take m) (bits.take m) ++ zipValids (vals.drop m) (bits.drop m) := by
  conv_lhs => rw [← List.take_append_drop m vals, ← List.take_append_drop m bits]
  exact zipValids_append (by simp [List.length_take, h])

/-! ## Numeric operations (`T::Native` capability surface) -/

/-- Modelled from the spec: the native-type trait surface used by the sum
kernels — a default/zero value and a wrapping addition. -/
structure NumOps (α : Type) where
  zero : α
  add : α → α → α

/-- The algebraic laws that wrapping addition of every integer element type
satisfies (commutativity, associativity, zero identity). -/
structure LawfulAdd (ops : NumOps α) : Prop where
  comm : ∀ a b, ops.add a b = ops.add b a
  assoc : ∀ a b c, ops.add (ops.add a b) c = ops.add a (ops.add b c)
  zero_add : ∀ a, ops.add ops.zero a = a

/-- Fold of the additive operation from the zero seed. -/
def msum (ops : NumOps α) (l : List α) : α := l.foldl ops.add ops.zero

section AddLaws

variable {ops : NumOps α}

theorem LawfulAdd.add_zero (L : LawfulAdd ops) (a : α) : ops.add a ops.zero = a := by
  rw [L.comm, L.zero_add]

theorem foldl_add_eq (L : LawfulAdd ops) (l : List α) :
    ∀ a : α, l.foldl ops.add a = ops.add a (msum ops l) := by
  induction l with
  | nil => intro a; simp [msum, L.add_zero]
  | cons x xs ih =>
      intro a
      have hx : msum ops (x :: xs) = ops.add x (msum ops xs) := by
        show List.foldl ops.add ops.zero (x :: xs) = _
        rw [List.foldl_cons, L.zero_add, ih x]
      rw [List.foldl_cons, ih (ops.add a x), hx, L.assoc]

theorem msum_cons (L : LawfulAdd ops) (x : α) (l : List α) :
    msum ops (x :: l) = ops.add x (msum ops l) := by
  show List.foldl ops.add ops.zero (x :: l) = _
  rw [List.foldl_cons, L.zero_add, foldl_add_eq L l x]

theorem msum_append (L : LawfulAdd ops) (l₁ l₂ : List α) :
    msum ops (l₁ ++ l₂) = ops.add (msum ops l₁) (msum ops l₂) := by
  show List.foldl ops.add ops.zero (l₁ ++ l₂) = _
  rw [List.foldl_append, foldl_add_eq L l₂]
  rfl

theorem msum_nil : msum ops ([] : List α) = ops.zero := rfl

theorem msum_replicate_zero (L : LawfulAdd ops) (n : Nat) :
    msum ops (List.replicate n ops.zero) = ops.zero := by
  induction n with
  | zero => rfl
  | succ n ih => rw [List.replicate_succ, msum_cons L, ih, L.add_zero]

theorem msum_zipWith_add (L : LawfulAdd ops) {xs ys : List α} (h : xs.length = ys.length) :
    msum ops (List.zipWith ops.add xs ys) = ops.add (msum ops xs) (msum ops ys) := by
  induction xs generalizing ys with
  | nil =>
      cases ys with
      | nil => simp [msum, L.zero_add]
      | cons y ys => simp at h
  | cons x xs ih =>
      cases ys with
      | nil => simp at h
      | cons y ys =>
          simp only [List.length_cons, Nat.succ.injEq] at h
          rw [List.zipWith_cons_cons, msum_cons L, msum_cons L, msum_cons L, ih h]
          rw [L.assoc, L.assoc]
          congr 1
          rw [← L.assoc, ← L.assoc, L.comm (msum ops xs) y]

end AddLaws

/-! ## The chunked wrapping sum (`sum`, lines 276-363 of aggregate.rs) -/

/-- Lane count of the scalar sum kernel (`const LANES: usize = 16`). -/
def LANES : Nat := 16

/-- One 16-wide sub-chunk with null masking: for each lane `i`, the value is
replaced by zero when validity bit `i` of the current mask is unset
(`if mask & (1 << i) == 0 { chunk[i] = T::default_value() }`). -/
def maskedLane (ops : NumOps α) (mask : Nat) (sub : List α) : List α :=
  (List.range LANES).map fun i =>
    if mask &&& (1 <<< i) == 0 then ops.zero else sub.getD i ops.zero

/-- Processing one 64-element data chunk against its bitmap word: the chunk is
split into 16-wide sub-chunks, each folded lane-wise into the accumulators,
the mask shifting right by `LANES % 64` after each sub-chunk. -/
def sumChunk64 (ops : NumOps α) (acc : List α) (chunk : List α) (mask : Nat) : List α :=
  ((chunksExact LANES chunk).1.foldl
    (fun (p : List α × Nat) sub =>
      (List.zipWith ops.add p.1 (maskedLane ops p.2 sub), p.2 >>> (LANES % 64)))
    (acc, mask)).1

/-- The chunk loop of the nullable sum path: 64-element data chunks zipped
with their bitmap words, folded into the 16 lane accumulators. -/
def sumLanesNulls (ops : NumOps α) (acc0 : List α) (data : List α) (bits : List Bool) :
    List α :=
  ((chunksExact 64 data).1.zip (fullWords bits)).foldl
    (fun acc cm => sumChunk64 ops acc cm.1 cm.2) acc0

/-- The remainder loop shared by the nullable kernels: enumerate the
remainder elements and fold in those whose remainder bit is set. -/
def remFold (step : α → β → α) (w : Nat) (rem : List β) (r0 : α) : α :=
  rem.enum.foldl (fun r iv => if w &&& (1 <<< iv.1) != 0 then step r iv.2 else r) r0

/-- The chunk loop of the non-null sum path: plain lane-wise accumulation. -/
def sumLanesNoNulls (ops : NumOps α) (acc0 : List α) (data : List α) : List α :=
  (chunksExact 64 data).1.foldl
    (fun acc chunk =>
      (chunksExact LANES chunk).1.foldl (fun a sub => List.zipWith ops.add a sub) acc)
    acc0

/-- Folding the 16 lane accumulators into one scalar
(`for v in chunk_acc { reduced = reduced.add_wrapping(v) }`). -/
def laneReduce (ops : NumOps α) (lanes : List α) : α := lanes.foldl ops.add ops.zero

/-- The wrapping sum kernel (`pub fn sum`): answers none when all slots are
null, otherwise runs the chunked lane-parallel accumulation — the masked
variant when a validity bitmap is present — and combines the reduced lanes
with the remainder accumulator. -/
def sum (ops : NumOps α) (a : PrimitiveArray α) : Option α :=
  if a.null_count = a.len then none else
  match a.validity with
  | none =>
      let chunkAcc := sumLanesNoNulls ops (List.replicate LANES ops.zero) a.values
      let remAcc := (chunksExact 64 a.values).2.foldl ops.add ops.zero
      some (ops.add (laneReduce ops chunkAcc) remAcc)
  | some bits =>
      let chunkAcc := sumLanesNulls ops (List.replicate LANES ops.zero) a.values bits
      let remAcc := remFold ops.add (remWord bits) ((chunksExact 64 a.values).2) ops.zero
      some (ops.add (laneReduce ops chunkAcc) remAcc)

/-- Reference semantics written from the spec sentence, not from the code: a
naive linear fold of wrapping addition over the logical (value, validity)
sequence, none when every slot is null. -/
def sumSpec (ops : NumOps α) (a : PrimitiveArray α) : Option α :=
  if a.null_count = a.len then none else some (msum ops a.validVals)

/-! ## Relating mask tests to the logical validity sequence -/

/-- The elements of `l` whose mask bit (starting at bit `j`) is set. -/
def bitFilter (w : Nat) : Nat → List α → List α
  | _, [] => []
  | j, v :: vs => (if w.testBit j then [v] else []) ++ bitFilter w (j + 1) vs

/-- The elements of `l` with zero substituted at unset mask bits. -/
def maskMap (ops : NumOps α) (w : Nat) : Nat → List α → List α
  | _, [] => []
  | j, v :: vs => (if w.testBit j then v else ops.zero) :: maskMap ops w (j + 1) vs

theorem bitFilter_eq_zipValids :
    ∀ (c : List α) (b : List Bool) (w j : Nat), c.length = b.length →
      (∀ i, i < c.length → w.testBit (j + i) = b.getD i false) →
      bitFilter w j c = zipValids c b := by
  intro c
  induction c with
  | nil =>
      intro b w j h _
      cases b with
      | nil => rfl
      | cons x xs => simp at h
  | cons v vs ih =>
      intro b w j h hbit
      cases b with
      | nil => simp at h
      | cons x xs =>
          simp only [List.length_cons, Nat.succ.injEq] at h
          have h0 := hbit 0 (by simp)
          simp only [Nat.add_zero, List.getD_cons_zero] at h0
          simp only [bitFilter, zipValids, h0]
          congr 1
          exact ih xs w (j + 1) h fun i hi => by
            have h2 := hbit (i + 1) (by simpa using Nat.succ_lt_succ hi)
            have h3 : j + (i + 1) = j + 1 + i := by omega
            rw [h3] at h2
            simpa using h2

theorem msum_maskMap {ops : NumOps α} (L : LawfulAdd ops) (w : Nat) :
    ∀ (l : List α) (j : Nat), msum ops (maskMap ops w j l) = msum ops (bitFilter w j l) := by
  intro l
  induction l with
  | nil => intro j; rfl
  | cons v vs ih =>
      intro j
      cases hb : w.testBit j with
      | true =>
          have e1 : maskMap ops w j (v :: vs) = v :: maskMap ops w (j + 1) vs := by
            simp [maskMap, hb]
          have e2 : bitFilter w j (v :: vs) = v :: bitFilter w (j + 1) vs := by
            simp [bitFilter, hb]
          rw [e1, e2, msum_cons L, msum_cons L, ih]
      | false =>
          have e1 : maskMap ops w j (v :: vs) = ops.zero :: maskMap ops w (j + 1) vs := by
            simp [maskMap, hb]
          have e2 : bitFilter w j (v :: vs) = bitFilter w (j + 1) vs := by
            simp [bitFilter, hb]
          rw [e1, e2, msum_cons L, L.zero_add, ih]

theorem maskedLane_eq_maskMap {ops : NumOps α} (sub : List α) (m : Nat)
    (h : sub.length = LANES) : maskedLane ops m sub = maskMap ops m 0 sub := by
  have key : ∀ (n j : Nat), (sub.drop j).length = n →
      (List.range' j n).map
          (fun i => if m &&& (1 <<< i) == 0 then ops.zero else sub.getD i ops.zero) =
        maskMap ops m j (sub.drop j) := by
    intro n
    induction n with
    | zero =>
        intro j hj
        have : sub.drop j = [] := List.eq_nil_of_length_eq_zero hj
        simp [this, maskMap]
    | succ n ih =>
        intro j hj
        have hjlt : j < sub.length := by
          simp only [List.length_drop] at hj; omega
        have hdrop : sub.drop j = sub[j] :: sub.drop (j + 1) :=
          List.drop_eq_getElem_cons hjlt
        have hlen : (sub.drop (j + 1)).length = n := by
          simp only [List.length_drop] at hj ⊢; omega
        have hhead : (if m &&& (1 <<< j) == 0 then ops.zero else sub.getD j ops.zero)
            = (if m.testBit j then sub[j] else ops.zero) := by
          rw [and_shift_eq_zero]
          cases hb : m.testBit j with
          | true =>
              rw [List.getD_eq_getElem sub ops.zero hjlt]
              simp [hb]
          | false => simp [hb]
        have hcons : maskMap ops m j (sub[j] :: sub.drop (j + 1))
            = (if m.testBit j then sub[j] else ops.zero)
                :: maskMap ops m (j + 1) (sub.drop (j + 1)) := rfl
        rw [List.range'_succ, List.map_cons, hdrop, hcons, ← ih (j + 1) hlen, hhead]
  have h0 : (sub.drop 0).length = LANES := by simpa using h
  have := key LANES 0 h0
  simpa [maskedLane, List.range_eq_range'] using this

theorem maskedLane_length {ops : NumOps α} (m : Nat) (sub : List α) :
    (maskedLane ops m sub).length = LANES := by
  simp [maskedLane]

/-- Concatenation of the mask-filtered sub-chunks, the mask shifting right
by one sub-chunk width each step. -/
def maskChunks (w : Nat) : List (List α) → List α
  | [] => []
  | s :: ss => bitFilter w 0 s ++ maskChunks (w >>> (LANES % 64)) ss

theorem sumChunkFold_length {ops : NumOps α} :
    ∀ (subs : List (List α)) (acc : List α) (m : Nat), acc.length = LANES →
      ((subs.foldl
          (fun (p : List α × Nat) sub =>
            (List.zipWith ops.add p.1 (maskedLane ops p.2 sub), p.2 >>> (LANES % 64)))
          (acc, m)).1).length = LANES := by
  intro subs
  induction subs with
  | nil => intro acc m h; simpa using h
  | cons s ss ih =>
      intro acc m h
      simp only [List.foldl_cons]
      exact ih _ _ (by simp [List.length_zipWith, h, maskedLane_length])

theorem sumChunkFold_msum {ops : NumOps α} (L : LawfulAdd ops) :
    ∀ (subs : List (List α)) (acc : List α) (m : Nat), acc.length = LANES →
      (∀ s ∈ subs, s.length = LANES) →
      msum ops ((subs.foldl
          (fun (p : List α × Nat) sub =>
            (List.zipWith ops.add p.1 (maskedLane ops p.2 sub), p.2 >>> (LANES % 64)))
          (acc, m)).1)
        = ops.add (msum ops acc) (msum ops (maskChunks m subs)) := by
  intro subs
  induction subs with
  | nil => intro acc m h _; simp [maskChunks, msum_nil, L.add_zero]
  | cons s ss ih =>
      intro acc m h hmem
      simp only [List.foldl_cons]
      rw [ih (List.zipWith ops.add acc (maskedLane ops m s)) (m >>> (LANES % 64))
            (by simp [List.length_zipWith, h, maskedLane_length])
            (fun s hs => hmem s (List.mem_cons_of_mem _ hs))]
      rw [msum_zipWith_add L (by rw [h, maskedLane_length])]
      rw [maskedLane_eq_maskMap s m (hmem s (List.mem_cons_self _ _)), msum_maskMap L]
      rw [maskChunks, msum_append L, L.assoc]

theorem sumChunk64_msum {ops : NumOps α} (L : LawfulAdd ops) (acc chunk : List α)
    (m : Nat) (hacc : acc.length = LANES) :
    msum ops (sumChunk64 ops acc chunk m)
      = ops.add (msum ops acc) (msum ops (maskChunks m (chunksExact LANES chunk).1)) :=
  sumChunkFold_msum L _ acc m hacc (chunksExact_mem_length LANES chunk)

theorem sumChunk64_length {ops : NumOps α} (acc chunk : List α) (m : Nat)
    (hacc : acc.length = LANES) : (sumChunk64 ops acc chunk m).length = LANES :=
  sumChunkFold_length _ acc m hacc

theorem getD_take_of_lt (l : List β) (d : β) (m i : Nat) (h : i < m) (h2 : i < l.length) :
    (l.take m).getD i d = l.getD i d := by
  have hi : i < (l.take m).length := by simp [List.length_take]; omega
  rw [List.getD_eq_getElem _ d hi, List.getD_eq_getElem _ d h2, List.getElem_take]

theorem maskChunks_chunks (fuel : Nat) :
    ∀ (c : List α) (b : List Bool), c.length ≤ fuel → c.length = b.length →
      c.length % LANES = 0 →
      maskChunks (bitsToWord b) (chunksExact LANES c).1 = zipValids c b := by
  induction fuel with
  | zero =>
      intro c b hf hl hm
      have hc : c = [] := List.eq_nil_of_length_eq_zero (Nat.le_zero.mp hf)
      have hb : b = [] := List.eq_nil_of_length_eq_zero (by omega)
      subst hc; subst hb
      simp [chunksExact_small LANES ([] : List α) (by simp [LANES]), maskChunks, zipValids]
  | succ fuel ih =>
      intro c b hf hl hm
      have hL : LANES = 16 := rfl
      have hm16 : c.length % 16 = 0 := by simpa [hL] using hm
      by_cases hlt : c.length < LANES
      · have hlt16 : c.length < 16 := hL ▸ hlt
        have hc0 : c.length = 0 := by omega
        have hc : c = [] := List.eq_nil_of_length_eq_zero hc0
        have hb : b = [] := List.eq_nil_of_length_eq_zero (by omega)
        subst hc; subst hb
        simp [chunksExact_small LANES ([] : List α) (by simp [LANES]), maskChunks, zipValids]
      · have hle : LANES ≤ c.length := Nat.le_of_not_lt hlt
        have hle16 : 16 ≤ c.length := hL ▸ hle
        have hpeel := chunksExact_peel LANES c (by simp [LANES]) hle
        rw [hpeel]
        have hmc : maskChunks (bitsToWord b)
              (c.take LANES :: (chunksExact LANES (c.drop LANES)).1)
            = bitFilter (bitsToWord b) 0 (c.take LANES)
              ++ maskChunks (bitsToWord b >>> (LANES % 64))
                  (chunksExact LANES (c.drop LANES)).1 := rfl
        rw [hmc]
        have hmod : LANES % 64 = LANES := rfl
        rw [hmod, ← bitsToWord_drop b LANES]
        have htake : bitFilter (bitsToWord b) 0 (c.take LANES)
            = zipValids (c.take LANES) (b.take LANES) := by
          apply bitFilter_eq_zipValids
          · simp [List.length_take]; omega
          · intro i hi
            have hi' : i < LANES ∧ i < c.length := by
              simpa [List.length_take, Nat.lt_min] using hi
            rw [Nat.zero_add, testBit_bitsToWord]
            exact (getD_take_of_lt b false LANES i hi'.1 (by omega)).symm
        rw [htake, ih (c.drop LANES) (b.drop LANES)
              (by simp only [List.length_drop, hL]; omega)
              (by simp only [List.length_drop]; omega)
              (by simp only [List.length_drop, hL]; omega)]
        exact (zipValids_split LANES hl).symm

theorem sumLanesNulls_msum {ops : NumOps α} (L : LawfulAdd ops) (fuel : Nat) :
    ∀ (data : List α) (bits : List Bool) (acc : List α),
      data.length ≤ fuel → bits.length = data.length → acc.length = LANES →
      msum ops (sumLanesNulls ops acc data bits)
        = ops.add (msum ops acc)
            (msum ops (zipValids (data.take (data.length / 64 * 64))
                                 (bits.take (data.length / 64 * 64)))) := by
  induction fuel with
  | zero =>
      intro data bits acc hf hl hacc
      have hd : data = [] := List.eq_nil_of_length_eq_zero (Nat.le_zero.mp hf)
      have hb : bits = [] := List.eq_nil_of_length_eq_zero (by rw [hd] at hl; simpa using hl)
      subst hd; subst hb
      simp [sumLanesNulls, chunksExact_small 64 ([] : List α) (by simp), fullWords,
        zipValids, msum_nil, L.add_zero]
  | succ fuel ih =>
      intro data bits acc hf hl hacc
      by_cases hlt : data.length < 64
      · have hsmalld := chunksExact_small 64 data hlt
        have hsmallb := chunksExact_small 64 bits (by omega)
        have hdiv : data.length / 64 = 0 := Nat.div_eq_of_lt hlt
        simp [sumLanesNulls, hsmalld, fullWords, hsmallb, hdiv, zipValids, msum_nil,
          L.add_zero]
      · have hle : (64 : Nat) ≤ data.length := Nat.le_of_not_lt hlt
        have hpeeld := chunksExact_peel 64 data (by norm_num) hle
        have hpeelb := chunksExact_peel 64 bits (by norm_num) (by omega)
        have hwords : fullWords bits
            = bitsToWord (bits.take 64) :: fullWords (bits.drop 64) := by
          unfold fullWords
          rw [hpeelb, List.map_cons]
        have hstep : sumLanesNulls ops acc data bits
            = sumLanesNulls ops
                (sumChunk64 ops acc (data.take 64) (bitsToWord (bits.take 64)))
                (data.drop 64) (bits.drop 64) := by
          unfold sumLanesNulls
          rw [hpeeld, hwords]
          rfl
        rw [hstep, ih (data.drop 64) (bits.drop 64) _
              (by simp only [List.length_drop]; omega)
              (by simp only [List.length_drop]; omega)
              (sumChunk64_length acc (data.take 64) _ hacc)]
        rw [sumChunk64_msum L acc (data.take 64) _ hacc]
        rw [maskChunks_chunks 64 (data.take 64) (bits.take 64)
              (by simp [List.length_take])
              (by simp [List.length_take]; omega)
              (by simp [List.length_take, LANES]; omega)]
        rw [L.assoc, ← msum_append L]
        congr 2
        have hdiv : data.length / 64 = (data.length - 64) / 64 + 1 :=
          Nat.div_eq_sub_div (by norm_num) hle
        have hqd : data.length / 64 * 64 = 64 + (data.length - 64) / 64 * 64 := by omega
        have hdd : (data.drop 64).length = data.length - 64 := by
          simp [List.length_drop]
        have hbb : (bits.drop 64).length = data.length - 64 := by
          simp [List.length_drop]; omega
        rw [hdd, hqd, List.take_add, List.take_add]
        exact (zipValids_append (by simp [List.length_take]; omega)).symm

theorem noNullInner_length {ops : NumOps α} :
    ∀ (subs : List (List α)) (acc : List α), acc.length = LANES →
      (∀ s ∈ subs, s.length = LANES) →
      ((subs.foldl (fun a sub => List.zipWith ops.add a sub) acc)).length = LANES := by
  intro subs
  induction subs with
  | nil => intro acc h _; simpa using h
  | cons s ss ih =>
      intro acc h hmem
      simp only [List.foldl_cons]
      exact ih _ (by simp [List.length_zipWith, h, hmem s (List.mem_cons_self _ _)])
        (fun t ht => hmem t (List.mem_cons_of_mem _ ht))

theorem noNullInner_msum {ops : NumOps α} (L : LawfulAdd ops) :
    ∀ (subs : List (List α)) (acc : List α), acc.length = LANES →
      (∀ s ∈ subs, s.length = LANES) →
      msum ops (subs.foldl (fun a sub => List.zipWith ops.add a sub) acc)
        = ops.add (msum ops acc) (msum ops subs.join) := by
  intro subs
  induction subs with
  | nil => intro acc h _; simp [msum_nil, L.add_zero]
  | cons s ss ih =>
      intro acc h hmem
      simp only [List.foldl_cons, List.join, List.flatten_cons]
      rw [ih _ (by simp [List.length_zipWith, h, hmem s (List.mem_cons_self _ _)])
            (fun t ht => hmem t (List.mem_cons_of_mem _ ht))]
      rw [msum_zipWith_add L (by rw [h, hmem s (List.mem_cons_self _ _)])]
      rw [msum_append L, L.assoc]

theorem sumLanesNoNulls_msum {ops : NumOps α} (L : LawfulAdd ops) (fuel : Nat) :
    ∀ (data : List α) (acc : List α), data.length ≤ fuel → acc.length = LANES →
      msum ops (sumLanesNoNulls ops acc data)
        = ops.add (msum ops acc) (msum ops (data.take (data.length / 64 * 64))) := by
  induction fuel with
  | zero =>
      intro data acc hf hacc
      have hd : data = [] := List.eq_nil_of_length_eq_zero (Nat.le_zero.mp hf)
      subst hd
      simp [sumLanesNoNulls, chunksExact_small 64 ([] : List α) (by simp), msum_nil,
        L.add_zero]
  | succ fuel ih =>
      intro data acc hf hacc
      by_cases hlt : data.length < 64
      · have hdiv : data.length / 64 = 0 := Nat.div_eq_of_lt hlt
        simp [sumLanesNoNulls, chunksExact_small 64 data hlt, hdiv, msum_nil, L.add_zero]
      · have hle : (64 : Nat) ≤ data.length := Nat.le_of_not_lt hlt
        have hpeeld := chunksExact_peel 64 data (by norm_num) hle
        have hstep : sumLanesNoNulls ops acc data
            = sumLanesNoNulls ops
                ((chunksExact LANES (data.take 64)).1.foldl
                  (fun a sub => List.zipWith ops.add a sub) acc)
                (data.drop 64) := by
          unfold sumLanesNoNulls
          rw [hpeeld]
          rfl
        have hsubs : ∀ s ∈ (chunksExact LANES (data.take 64)).1, s.length = LANES :=
          chunksExact_mem_length LANES (data.take 64)
        have hinlen : ((chunksExact LANES (data.take 64)).1.foldl
            (fun a sub => List.zipWith ops.add a sub) acc).length = LANES :=
          noNullInner_length _ acc hacc hsubs
        rw [hstep, ih (data.drop 64) _ (by simp only [List.length_drop]; omega) hinlen]
        rw [noNullInner_msum L _ acc hacc hsubs]
        have hjoin : ((chunksExact LANES (data.take 64)).1).join = data.take 64 := by
          have h64 : (data.take 64).length = 64 := by simp [List.length_take]; omega
          have hj := chunksExact_fst_join LANES (data.take 64)
          rw [h64] at hj
          have h44 : (64 : Nat) / LANES * LANES = 64 := rfl
          rw [h44] at hj
          rw [hj]
          simp [List.take_take]
        rw [hjoin, L.assoc, ← msum_append L]
        congr 2
        have hdiv : data.length / 64 = (data.length - 64) / 64 + 1 :=
          Nat.div_eq_sub_div (by norm_num) hle
        have hqd : data.length / 64 * 64 = 64 + (data.length - 64) / 64 * 64 := by omega
        have hdd : (data.drop 64).length = data.length - 64 := by
          simp [List.length_drop]
        rw [hdd, hqd, List.take_add]

theorem enumFromFold (w : Nat) (step : α → β → α) :
    ∀ (l : List β) (k : Nat) (r : α),
      (List.enumFrom k l).foldl
          (fun r iv => if w &&& (1 <<< iv.1) != 0 then step r iv.2 else r) r
        = (bitFilter w k l).foldl step r := by
  intro l
  induction l with
  | nil => intro k r; rfl
  | cons v vs ih =>
      intro k r
      have hcons : List.enumFrom k (v :: vs) = (k, v) :: List.enumFrom (k + 1) vs := rfl
      rw [hcons, List.foldl_cons]
      cases hb : w.testBit k with
      | true =>
          have e2 : bitFilter w k (v :: vs) = v :: bitFilter w (k + 1) vs := by
            simp [bitFilter, hb]
          rw [e2, List.foldl_cons]
          have hcond : (w &&& (1 <<< k) != 0) = true := by rw [and_shift_ne_zero, hb]
          rw [hcond]
          simp only [if_true]
          exact ih (k + 1) (step r v)
      | false =>
          have e2 : bitFilter w k (v :: vs) = bitFilter w (k + 1) vs := by
            simp [bitFilter, hb]
          rw [e2]
          have hcond : (w &&& (1 <<< k) != 0) = false := by rw [and_shift_ne_zero, hb]
          rw [hcond]
          simp only [if_false]
          exact ih (k + 1) r

theorem remFold_eq (step : α → β → α) (rem : List β) (rembits : List Bool) (r0 : α)
    (h : rem.length = rembits.length) :
    remFold step (bitsToWord rembits) rem r0 = (zipValids rem rembits).foldl step r0 := by
  unfold remFold
  have henum : rem.enum = List.enumFrom 0 rem := rfl
  rw [henum, enumFromFold (bitsToWord rembits) step rem 0 r0]
  congr 1
  apply bitFilter_eq_zipValids rem rembits _ 0 h
  intro i _
  rw [Nat.zero_add, testBit_bitsToWord]

theorem laneReduce_eq {ops : NumOps α} (lanes : List α) :
    laneReduce ops lanes = msum ops lanes := rfl

theorem msum_def {ops : NumOps α} (l : List α) :
    l.foldl ops.add ops.zero = msum ops l := rfl

/-- The chunked, lane-parallel wrapping sum agrees with the naive linear fold
over the logical (value, validity) sequence, for any length and any validity
pattern, whenever the additive operation is commutative, associative and has
zero as identity (as wrapping addition of every integer element type does). -/
theorem sum_eq_sumSpec {ops : NumOps α} (L : LawfulAdd ops) (a : PrimitiveArray α)
    (hwf : a.wf = true) : sum ops a = sumSpec ops a := by
  obtain ⟨values, validity⟩ := a
  by_cases hnc : PrimitiveArray.null_count ⟨values, validity⟩
      = PrimitiveArray.len ⟨values, validity⟩
  · unfold sum sumSpec
    rw [if_pos hnc, if_pos hnc]
  · cases validity with
    | none =>
        simp only [sum, sumSpec]
        rw [if_neg hnc, if_neg hnc]
        congr 1
        have hvv : PrimitiveArray.validVals ⟨values, none⟩ = values := rfl
        rw [hvv, laneReduce_eq]
        rw [sumLanesNoNulls_msum L values.length values (List.replicate LANES ops.zero)
              (le_refl _) (by simp)]
        rw [msum_replicate_zero L, L.zero_add, chunksExact_snd 64 values, msum_def,
          ← msum_append L, List.take_append_drop]
    | some bits =>
        have hblen : bits.length = values.length :=
          PrimitiveArray.wf_some hwf rfl
        simp only [sum, sumSpec]
        rw [if_neg hnc, if_neg hnc]
        congr 1
        have hvv : PrimitiveArray.validVals ⟨values, some bits⟩ = zipValids values bits :=
          rfl
        rw [hvv, laneReduce_eq]
        rw [sumLanesNulls_msum L values.length values bits (List.replicate LANES ops.zero)
              (le_refl _) hblen (by simp)]
        rw [msum_replicate_zero L, L.zero_add, chunksExact_snd 64 values]
        have hrw : remWord bits = bitsToWord (bits.drop (values.length / 64 * 64)) := by
          unfold remWord
          rw [chunksExact_snd 64 bits, hblen]
        rw [hrw]
        rw [remFold_eq ops.add (values.drop (values.length / 64 * 64))
              (bits.drop (values.length / 64 * 64)) ops.zero
              (by simp [List.length_drop, hblen])]
        rw [msum_def, ← msum_append L]
        congr 1
        exact (zipValids_split (values.length / 64 * 64) hblen.symm).symm

/-! ## Generic min/max reducer (`min_max_helper`, lines 105-134) -/

/-- Modelled from the spec: the `ArrayAccessor` abstraction — a length, an
optional validity window, and unchecked value access by index. -/
structure Accessor (α : Type) where
  len : Nat
  validity : Option (List Bool)
  value : Nat → α

def Accessor.null_count (a : Accessor α) : Nat :=
  match a.validity with
  | none => 0
  | some bits => bits.count false

/-- Modelled from the spec: `NullBuffer::valid_indices`, the ascending indices
of set validity bits within the window. -/
def validIdxs (v : Option (List Bool)) (len : Nat) : List Nat :=
  match v with
  | none => List.range len
  | some bits => (List.range len).filter (fun i => bits.getD i false)

/-- Rust `Iterator::reduce`: seed the accumulator with the first element. -/
def reduceList (cmp : γ → γ → Bool) : List γ → Option γ
  | [] => none
  | x :: xs => some (xs.foldl (fun acc item => if cmp acc item then item else acc) x)

/-- The generic min/max reducer: absent when all slots are null, an unchecked
linear reduce when no slot is null, and otherwise a reduce over the valid
indices followed by one value read. -/
def min_max_helper (a : Accessor α) (cmp : α → α → Bool) : Option α :=
  if a.null_count = a.len then none
  else if a.null_count = 0 then
    reduceList cmp ((List.range a.len).map a.value)
  else
    (reduceList (fun i j => cmp (a.value i) (a.value j))
        (validIdxs a.validity a.len)).map a.value

/-- The accessor of a primitive array (unchecked reads via `getD`). -/
def PrimitiveArray.acc [Inhabited α] (a : PrimitiveArray α) : Accessor α :=
  ⟨a.len, a.validity, fun i => a.values.getD i default⟩

/-! ## NaN-aware comparator (lines 29-56)

Modelled from the spec: the `PartialOrd` comparison semantics of the float
element types — `==`, `<` and `>` are false whenever an operand is NaN, and
a value is NaN exactly when it is not equal to itself.  Finite float values
are represented by their (totally ordered) numeric value. -/

inductive FloatVal where
  | nan : FloatVal
  | fin : Int → FloatVal
deriving DecidableEq, Inhabited

/-- The comparison operations the kernel consumes from the element type. -/
structure OrdOps (α : Type) where
  beq : α → α → Bool
  blt : α → α → Bool
  bgt : α → α → Bool

/-- Generic test for NaN (`!(a == a)`); false on every totally ordered type. -/
def is_nan (o : OrdOps α) (x : α) : Bool := !(o.beq x x)

/-- Modelled from the spec: IEEE float comparisons. -/
def floatOrd : OrdOps FloatVal where
  beq := fun a b =>
    match a, b with
    | .fin x, .fin y => x == y
    | _, _ => false
  blt := fun a b =>
    match a, b with
    | .fin x, .fin y => decide (x < y)
    | _, _ => false
  bgt := fun a b =>
    match a, b with
    | .fin x, .fin y => decide (x > y)
    | _, _ => false

/-- The comparison closure of `min` (`(is_nan a & !is_nan b) || a > b`). -/
def minCmp (o : OrdOps α) : α → α → Bool :=
  fun x y => (is_nan o x && !(is_nan o y)) || o.bgt x y

/-- The comparison closure of `max` (`(!is_nan a & is_nan b) || a < b`). -/
def maxCmp (o : OrdOps α) : α → α → Bool :=
  fun x y => (!(is_nan o x) && is_nan o y) || o.blt x y

/-- `pub fn min` (scalar path). -/
def min [Inhabited α] (o : OrdOps α) (a : PrimitiveArray α) : Option α :=
  min_max_helper a.acc (minCmp o)

/-- `pub fn max` (scalar path). -/
def max [Inhabited α] (o : OrdOps α) (a : PrimitiveArray α) : Option α :=
  min_max_helper a.acc (maxCmp o)

theorem reduceList_map (cmp : γ → γ → Bool) (f : β → γ) :
    ∀ l : List β,
      (reduceList (fun i j => cmp (f i) (f j)) l).map f = reduceList cmp (l.map f) := by
  have key : ∀ (xs : List β) (x : β),
      f (xs.foldl (fun acc it => if cmp (f acc) (f it) then it else acc) x)
        = (xs.map f).foldl (fun acc it => if cmp acc it then it else acc) (f x) := by
    intro xs
    induction xs with
    | nil => intro x; rfl
    | cons y ys ih =>
        intro x
        simp only [List.foldl_cons, List.map_cons, ih, apply_ite f]
  intro l
  cases l with
  | nil => rfl
  | cons x xs =>
      simp only [reduceList, List.map_cons]
      exact congrArg some (key xs x)

theorem range_map_getD [Inhabited α] (values : List α) :
    (List.range values.length).map (fun i => values.getD i default) = values := by
  apply List.ext_getElem
  · simp
  · intro i h1 h2
    simp only [List.getElem_map, List.getElem_range]
    exact List.getD_eq_getElem values default h2

theorem validIdxs_map_getD [Inhabited α] :
    ∀ (values : List α) (bits : List Bool), bits.length = values.length →
      ((List.range values.length).filter (fun i => bits.getD i false)).map
          (fun i => values.getD i default)
        = zipValids values bits := by
  intro values
  induction values with
  | nil =>
      intro bits h
      have : bits = [] := List.eq_nil_of_length_eq_zero (by simpa using h)
      subst this
      rfl
  | cons v vs ih =>
      intro bits h
      cases bits with
      | nil => simp at h
      | cons b bs =>
          simp only [List.length_cons, Nat.succ.injEq] at h
          rw [List.length_cons, List.range_succ_eq_map, List.filter_cons]
          have hps : List.filter (fun i => (b :: bs).getD i false)
                ((List.range vs.length).map Nat.succ)
              = ((List.range vs.length).filter fun i => bs.getD i false).map Nat.succ := by
            rw [List.filter_map]
            congr 1
          have hmap :
              ((((List.range vs.length).filter fun i => bs.getD i false).map
                  Nat.succ).map (fun i => (v :: vs).getD i default))
                = ((List.range vs.length).filter fun i => bs.getD i false).map
                    fun i => vs.getD i default := by
            rw [List.map_map]
            rfl
          cases b with
          | true =>
              rw [if_pos (by rfl)]
              rw [List.map_cons, hps, hmap, ih bs h]
              simp [zipValids]
          | false =>
              rw [if_neg (by simp)]
              rw [hps, hmap, ih bs h]
              simp [zipValids]

theorem count_true_add_count_false (bits : List Bool) :
    bits.count true + bits.count false = bits.length := by
  induction bits with
  | nil => rfl
  | cons b bs ih =>
      cases b <;> simp [List.count_cons] <;> omega

theorem all_false_of_count {bits : List Bool} (h : bits.count false = bits.length) :
    ∀ b ∈ bits, b = false :=
  fun b hb => (List.count_eq_length.mp h b hb).symm

theorem all_true_of_count {bits : List Bool} (h : bits.count false = 0) :
    ∀ b ∈ bits, b = true := by
  intro b hb
  cases hbv : b with
  | true => rfl
  | false =>
      rw [hbv] at hb
      exact absurd hb (List.count_eq_zero.mp h)

theorem zipValids_all_true :
    ∀ (values : List α) (bits : List Bool), (∀ b ∈ bits, b = true) →
      bits.length = values.length → zipValids values bits = values := by
  intro values
  induction values with
  | nil => intro bits _ h; cases bits <;> simp at h ⊢ <;> rfl
  | cons v vs ih =>
      intro bits hall h
      cases bits with
      | nil => simp at h
      | cons b bs =>
          have hb : b = true := hall b (List.mem_cons_self _ _)
          simp only [List.length_cons, Nat.succ.injEq] at h
          simp [zipValids, hb, ih bs (fun x hx => hall x (List.mem_cons_of_mem _ hx)) h]

theorem zipValids_all_false :
    ∀ (values : List α) (bits : List Bool), (∀ b ∈ bits, b = false) →
      zipValids values bits = [] := by
  intro values
  induction values with
  | nil => intro bits _; cases bits <;> rfl
  | cons v vs ih =>
      intro bits hall
      cases bits with
      | nil => rfl
      | cons b bs =>
          have hb : b = false := hall b (List.mem_cons_self _ _)
          simp [zipValids, hb, ih bs fun x hx => hall x (List.mem_cons_of_mem _ hx)]

theorem zipValids_length :
    ∀ (values : List α) (bits : List Bool), bits.length = values.length →
      (zipValids values bits).length = bits.count true := by
  intro values
  induction values with
  | nil =>
      intro bits h
      have : bits = [] := List.eq_nil_of_length_eq_zero (by simpa using h)
      subst this
      rfl
  | cons v vs ih =>
      intro bits h
      cases bits with
      | nil => simp at h
      | cons b bs =>
          simp only [List.length_cons, Nat.succ.injEq] at h
          cases b <;> simp [zipValids, List.count_cons, ih bs h]

theorem validVals_length (a : PrimitiveArray α) (hwf : a.wf = true) :
    a.validVals.length = a.len - a.null_count := by
  obtain ⟨values, validity⟩ := a
  cases validity with
  | none => simp [PrimitiveArray.validVals, PrimitiveArray.len, PrimitiveArray.null_count]
  | some bits =>
      have hblen : bits.length = values.length := PrimitiveArray.wf_some hwf rfl
      have hc := count_true_add_count_false bits
      have hz := zipValids_length values bits hblen
      simp only [PrimitiveArray.validVals, PrimitiveArray.len, PrimitiveArray.null_count]
      omega

/-- The generic min/max reducer agrees with `Iterator::reduce` applied to the
logical valid values in index order, for every comparison closure. -/
theorem min_max_helper_eq [Inhabited α] (a : PrimitiveArray α) (hwf : a.wf = true)
    (cmp : α → α → Bool) : min_max_helper a.acc cmp = reduceList cmp a.validVals := by
  obtain ⟨values, validity⟩ := a
  cases validity with
  | none =>
      simp only [min_max_helper, PrimitiveArray.acc, Accessor.null_count,
        PrimitiveArray.validVals, PrimitiveArray.len, PrimitiveArray.null_count]
      by_cases h0 : (0 : Nat) = values.length
      · rw [if_pos h0]
        have : values = [] := List.eq_nil_of_length_eq_zero h0.symm
        subst this
        rfl
      · rw [if_neg h0, if_pos trivial, range_map_getD]
  | some bits =>
      have hblen : bits.length = values.length := PrimitiveArray.wf_some hwf rfl
      simp only [min_max_helper, PrimitiveArray.acc, Accessor.null_count,
        PrimitiveArray.validVals, PrimitiveArray.len, PrimitiveArray.null_count]
      by_cases h1 : bits.count false = values.length
      · rw [if_pos h1]
        have hall : ∀ b ∈ bits, b = false := all_false_of_count (by omega)
        rw [zipValids_all_false values bits hall]
        rfl
      · rw [if_neg h1]
        by_cases h2 : bits.count false = 0
        · rw [if_pos h2, range_map_getD,
            zipValids_all_true values bits (all_true_of_count h2) hblen]
        · rw [if_neg h2]
          rw [reduceList_map cmp (fun i => values.getD i default) (validIdxs (some bits) values.length)]
          have hvi : validIdxs (some bits) values.length
              = (List.range values.length).filter fun i => bits.getD i false := rfl
          rw [hvi, validIdxs_map_getD values bits hblen]

/-! ## Float min/max semantics -/

/-- Numeric values of the finite entries, in order. -/
def finVals (l : List FloatVal) : List Int :=
  l.filterMap fun v => match v with | .nan => none | .fin q => some q

/-- Whether the list holds a NaN entry. -/
def hasNan (l : List FloatVal) : Bool :=
  l.any fun v => match v with | .nan => true | .fin _ => false

def intMin (a b : Int) : Int := if a ≤ b then a else b

def intMax (a b : Int) : Int := if a ≤ b then b else a

/-- Minimum of the finite entries, absent when there is none. -/
def finMin? (l : List FloatVal) : Option Int :=
  match finVals l with
  | [] => none
  | x :: xs => some (xs.foldl intMin x)

/-- Maximum of the finite entries, absent when there is none. -/
def finMax? (l : List FloatVal) : Option Int :=
  match finVals l with
  | [] => none
  | x :: xs => some (xs.foldl intMax x)

/-- NaN when no finite entry exists, otherwise the wrapped finite value. -/
def toF : Option Int → FloatVal
  | none => .nan
  | some m => .fin m

theorem minFold_char :
    ∀ (l : List FloatVal) (x : FloatVal),
      l.foldl (fun acc it => if minCmp floatOrd acc it then it else acc) x
        = toF (finMin? (x :: l)) := by
  intro l
  induction l with
  | nil => intro x; cases x <;> rfl
  | cons v vs ih =>
      intro x
      rw [List.foldl_cons, ih]
      congr 1
      cases x with
      | nan =>
          cases v with
          | nan => rfl
          | fin q =>
              have hcmp : minCmp floatOrd .nan (.fin q) = true := by
                simp [minCmp, floatOrd, is_nan]
              rw [if_pos hcmp]
              rfl
      | fin p =>
          cases v with
          | nan =>
              have hcmp : minCmp floatOrd (.fin p) .nan = false := by
                simp [minCmp, floatOrd, is_nan]
              rw [hcmp]
              rw [if_neg (by simp)]
              rfl
          | fin q =>
              show finMin? ((if minCmp floatOrd (.fin p) (.fin q) then FloatVal.fin q
                  else .fin p) :: vs) = finMin? (.fin p :: .fin q :: vs)
              have hm : (if minCmp floatOrd (.fin p) (.fin q) then FloatVal.fin q
                  else .fin p) = .fin (intMin p q) := by
                have hcmp : minCmp floatOrd (.fin p) (.fin q) = decide (p > q) := by
                  simp [minCmp, floatOrd, is_nan]
                rw [hcmp]
                by_cases hpq : p > q
                · have hle : ¬ p ≤ q := not_le.mpr hpq
                  simp [hpq, intMin, hle]
                · have hle : p ≤ q := not_lt.mp hpq
                  simp [hpq, intMin, hle]
              rw [hm]
              rfl

theorem maxFold_char :
    ∀ (l : List FloatVal) (x : FloatVal),
      l.foldl (fun acc it => if maxCmp floatOrd acc it then it else acc) x
        = (if hasNan (x :: l) then .nan else toF (finMax? (x :: l))) := by
  intro l
  induction l with
  | nil =>
      intro x
      cases x <;> rfl
  | cons v vs ih =>
      intro x
      rw [List.foldl_cons, ih]
      cases x with
      | nan =>
          have hcmp : ∀ y, maxCmp floatOrd .nan y = false := by
            intro y
            simp [maxCmp, floatOrd, is_nan]
          rw [hcmp v]
          have hstep : (if (false = true) then v else FloatVal.nan) = FloatVal.nan := by
            simp
          rw [hstep]
          have h1 : hasNan (FloatVal.nan :: vs) = true := rfl
          have h2 : hasNan (FloatVal.nan :: v :: vs) = true := rfl
          rw [h1, h2]
          simp
      | fin p =>
          cases v with
          | nan =>
              have hcmp : maxCmp floatOrd (.fin p) .nan = true := by
                simp [maxCmp, floatOrd, is_nan]
              rw [if_pos hcmp]
              rfl
          | fin q =>
              have hm : (if maxCmp floatOrd (.fin p) (.fin q) then FloatVal.fin q
                  else .fin p) = .fin (intMax p q) := by
                have hcmp : maxCmp floatOrd (.fin p) (.fin q) = decide (p < q) := by
                  simp [maxCmp, floatOrd, is_nan]
                rw [hcmp]
                by_cases hpq : p < q
                · have hle : p ≤ q := le_of_lt hpq
                  simp [hpq, intMax, hle]
                · by_cases heq : p = q
                  · subst heq
                    simp [intMax]
                  · have hle : ¬ p ≤ q := by
                      rcases lt_or_le q p with hlt | hge
                      · exact not_le.mpr hlt
                      · exact absurd (lt_of_le_of_ne hge heq) hpq
                    simp [hpq, intMax, hle]
              rw [hm]
              have e1 : hasNan (FloatVal.fin (intMax p q) :: vs) = hasNan vs := rfl
              have e2 : hasNan (FloatVal.fin p :: FloatVal.fin q :: vs) = hasNan vs := rfl
              rw [e1, e2]
              cases hn : hasNan vs with
              | true => rfl
              | false => rfl

theorem finVals_eq_nil_iff (l : List FloatVal) :
    finVals l = [] ↔ ∀ v ∈ l, v = .nan := by
  unfold finVals
  rw [List.filterMap_eq_nil]
  constructor
  · intro h v hv
    have := h v hv
    cases v with
    | nan => rfl
    | fin q => simp at this
  · intro h v hv
    rw [h v hv]

theorem hasNan_iff (l : List FloatVal) : hasNan l = true ↔ FloatVal.nan ∈ l := by
  unfold hasNan
  rw [List.any_eq_true]
  constructor
  · rintro ⟨v, hv, hp⟩
    cases v with
    | nan => exact hv
    | fin q => simp at hp
  · intro h
    exact ⟨.nan, h, rfl⟩

theorem reduceList_min_float (l : List FloatVal) (h : l ≠ []) :
    reduceList (minCmp floatOrd) l = some (toF (finMin? l)) := by
  cases l with
  | nil => exact absurd rfl h
  | cons x xs =>
      show some _ = _
      rw [minFold_char xs x]

theorem reduceList_max_float (l : List FloatVal) (h : l ≠ []) :
    reduceList (maxCmp floatOrd) l
      = some (if hasNan l then .nan else toF (finMax? l)) := by
  cases l with
  | nil => exact absurd rfl h
  | cons x xs =>
      show some _ = _
      rw [maxFold_char xs x]

/-! ## Bitwise reducer (`bit_operation!` macro, lines 365-452) -/

/-- One 64-element chunk of the nullable bitwise path: walk the chunk with a
doubling `index_mask`, folding in the values whose validity bit is set. -/
def bitChunkStep (op : α → α → α) (mask : Nat) (chunk : List α) (r : α) : α :=
  (chunk.foldl
    (fun (p : α × Nat) v => (if mask &&& p.2 != 0 then op p.1 v else p.1, p.2 <<< 1))
    (r, 1)).1

/-- The generic bitwise reduction: absent when all slots are null, a plain
fold over the data when no bitmap is present, and otherwise the 64-chunked
per-bit walk followed by the remainder loop. -/
def bit_operation (op : α → α → α) (dflt : α) (a : PrimitiveArray α) : Option α :=
  if a.null_count = a.len then none else
  match a.validity with
  | none => some (a.values.foldl op dflt)
  | some bits =>
      some (remFold op (remWord bits) ((chunksExact 64 a.values).2)
        (((chunksExact 64 a.values).1.zip (fullWords bits)).foldl
          (fun r cm => bitChunkStep op cm.2 cm.1 r) dflt))

theorem bitInner_eq (op : α → α → α) (mask : Nat) :
    ∀ (chunk : List α) (j : Nat) (r : α),
      (chunk.foldl
        (fun (p : α × Nat) v =>
          (if mask &&& p.2 != 0 then op p.1 v else p.1, p.2 <<< 1))
        (r, 2 ^ j)).1
      = (bitFilter mask j chunk).foldl op r := by
  intro chunk
  induction chunk with
  | nil => intro j r; rfl
  | cons v vs ih =>
      intro j r
      rw [List.foldl_cons]
      have hshift : (2 ^ j) <<< 1 = 2 ^ (j + 1) := by
        rw [Nat.shiftLeft_eq, Nat.pow_succ]
        ring
      have hcond : (mask &&& 2 ^ j != 0) = mask.testBit j := by
        rw [← and_shift_ne_zero]
        rw [Nat.shiftLeft_eq, Nat.one_mul]
      rw [hcond, hshift]
      cases hb : mask.testBit j with
      | true =>
          have e2 : bitFilter mask j (v :: vs) = v :: bitFilter mask (j + 1) vs := by
            simp [bitFilter, hb]
          rw [e2, List.foldl_cons]
          simp only [if_true]
          exact ih (j + 1) (op r v)
      | false =>
          have e2 : bitFilter mask j (v :: vs) = bitFilter mask (j + 1) vs := by
            simp [bitFilter, hb]
          rw [e2]
          simp only [if_false]
          exact ih (j + 1) r

theorem bitChunkStep_eq (op : α → α → α) (mask : Nat) (chunk : List α) (r : α) :
    bitChunkStep op mask chunk r = (bitFilter mask 0 chunk).foldl op r := by
  have h := bitInner_eq op mask chunk 0 r
  simpa [bitChunkStep] using h

theorem bitChunksFold_eq (op : α → α → α) (fuel : Nat) :
    ∀ (data : List α) (bits : List Bool) (r : α),
      data.length ≤ fuel → bits.length = data.length →
      ((chunksExact 64 data).1.zip (fullWords bits)).foldl
          (fun r cm => bitChunkStep op cm.2 cm.1 r) r
        = (zipValids (data.take (data.length / 64 * 64))
            (bits.take (data.length / 64 * 64))).foldl op r := by
  induction fuel with
  | zero =>
      intro data bits r hf hl
      have hd : data = [] := List.eq_nil_of_length_eq_zero (Nat.le_zero.mp hf)
      have hb : bits = [] := List.eq_nil_of_length_eq_zero (by rw [hd] at hl; simpa using hl)
      subst hd; subst hb
      simp [chunksExact_small 64 ([] : List α) (by simp), fullWords, zipValids]
  | succ fuel ih =>
      intro data bits r hf hl
      by_cases hlt : data.length < 64
      · have hsmalld := chunksExact_small 64 data hlt
        have hsmallb := chunksExact_small 64 bits (by omega)
        have hdiv : data.length / 64 = 0 := Nat.div_eq_of_lt hlt
        simp [hsmalld, fullWords, hsmallb, hdiv, zipValids]
      · have hle : (64 : Nat) ≤ data.length := Nat.le_of_not_lt hlt
        have hpeeld := chunksExact_peel 64 data (by norm_num) hle
        have hpeelb := chunksExact_peel 64 bits (by norm_num) (by omega)
        have hwords : fullWords bits
            = bitsToWord (bits.take 64) :: fullWords (bits.drop 64) := by
          unfold fullWords
          rw [hpeelb, List.map_cons]
        have hstep : ((chunksExact 64 data).1.zip (fullWords bits)).foldl
              (fun r cm => bitChunkStep op cm.2 cm.1 r) r
            = ((chunksExact 64 (data.drop 64)).1.zip (fullWords (bits.drop 64))).foldl
                (fun r cm => bitChunkStep op cm.2 cm.1 r)
                (bitChunkStep op (bitsToWord (bits.take 64)) (data.take 64) r) := by
          rw [hpeeld, hwords]
          rfl
        rw [hstep, ih (data.drop 64) (bits.drop 64) _
              (by simp only [List.length_drop]; omega)
              (by simp only [List.length_drop]; omega)]
        rw [bitChunkStep_eq]
        have htake : bitFilter (bitsToWord (bits.take 64)) 0 (data.take 64)
            = zipValids (data.take 64) (bits.take 64) := by
          apply bitFilter_eq_zipValids
          · simp [List.length_take]; omega
          · intro i hi
            rw [Nat.zero_add, testBit_bitsToWord]
        rw [htake, ← List.foldl_append]
        congr 1
        have hdiv : data.length / 64 = (data.length - 64) / 64 + 1 :=
          Nat.div_eq_sub_div (by norm_num) hle
        have hqd : data.length / 64 * 64 = 64 + (data.length - 64) / 64 * 64 := by omega
        have hdd : (data.drop 64).length = data.length - 64 := by
          simp [List.length_drop]
        rw [hdd, hqd, List.take_add, List.take_add]
        exact (zipValids_append (by simp [List.length_take]; omega)).symm

/-- The chunked bitwise reduction is the plain left fold of the operation
over the logical valid values, seeded with the identity element — for any
operation, since the traversal preserves index order. -/
theorem bit_operation_eq (op : α → α → α) (dflt : α) (a : PrimitiveArray α)
    (hwf : a.wf = true) (hnc : ¬ a.null_count = a.len) :
    bit_operation op dflt a = some (a.validVals.foldl op dflt) := by
  obtain ⟨values, validity⟩ := a
  cases validity with
  | none =>
      simp only [bit_operation, PrimitiveArray.validVals]
      rw [if_neg hnc]
  | some bits =>
      have hblen : bits.length = values.length := PrimitiveArray.wf_some hwf rfl
      simp only [bit_operation, PrimitiveArray.validVals]
      rw [if_neg hnc]
      congr 1
      rw [bitChunksFold_eq op values.length values bits dflt (le_refl _) hblen]
      rw [chunksExact_snd 64 values]
      have hrw : remWord bits = bitsToWord (bits.drop (values.length / 64 * 64)) := by
        unfold remWord
        rw [chunksExact_snd 64 bits, hblen]
      rw [hrw]
      rw [remFold_eq op (values.drop (values.length / 64 * 64))
            (bits.drop (values.length / 64 * 64)) _
            (by simp [List.length_drop, hblen])]
      rw [← List.foldl_append]
      congr 1
      exact (zipValids_split (values.length / 64 * 64) hblen.symm).symm

/-! ## Array iteration (`ArrayIter`) and boolean reducers (lines 67-102, 457-472) -/

def Accessor.isValid (a : Accessor α) (i : Nat) : Bool :=
  match a.validity with
  | none => true
  | some bits => bits.getD i false

/-- Modelled from the spec: `ArrayIter`, yielding one `Option` per logical
slot in index order. -/
def arrayIter (a : Accessor α) : List (Option α) :=
  (List.range a.len).map fun i => if a.isValid i then some (a.value i) else none

def optFlatten : Option (Option β) → Option β
  | some x => x
  | none => none

def optOr : Option β → Option β → Option β
  | some v, _ => some v
  | none, d => d

/-- Modelled from the spec: `BooleanArray::false_count`, the count of
non-null false slots. -/
def false_count (a : PrimitiveArray Bool) : Nat := a.validVals.count false

/-- Modelled from the spec: `BooleanArray::true_count`, the count of
non-null true slots. -/
def true_count (a : PrimitiveArray Bool) : Nat := a.validVals.count true

/-- `pub fn bool_and`: none when all slots are null, otherwise true exactly
when the precomputed false-count is zero. -/
def bool_and (a : PrimitiveArray Bool) : Option Bool :=
  if a.null_count = a.len then none else some (false_count a == 0)

/-- `pub fn bool_or`: none when all slots are null, otherwise true exactly
when the precomputed true-count is nonzero. -/
def bool_or (a : PrimitiveArray Bool) : Option Bool :=
  if a.null_count = a.len then none else some (true_count a != 0)

/-- `pub fn min_boolean`: short-circuit on the first valid false, defaulting
to true (`iter().find(b == Some(false)).flatten().or(Some(true))`). -/
def min_boolean (a : PrimitiveArray Bool) : Option Bool :=
  if a.null_count = a.len then none
  else optOr (optFlatten ((arrayIter a.acc).find? fun b => b == some false)) (some true)

/-- `pub fn max_boolean`: short-circuit on the first valid true, defaulting
to false. -/
def max_boolean (a : PrimitiveArray Bool) : Option Bool :=
  if a.null_count = a.len then none
  else optOr (optFlatten ((arrayIter a.acc).find? fun b => b == some true)) (some false)

/-! ## Binary / string min and max (lines 136-154).

Rust `&[u8]` and `&str` both compare bytewise lexicographically; byte
strings are modelled as lists of naturals. -/

/-- Lexicographic order on byte strings. -/
def bytesLt : List Nat → List Nat → Bool
  | _ :: _, [] => false
  | [], _ :: _ => true
  | [], [] => false
  | x :: xs, y :: ys => if x < y then true else if y < x then false else bytesLt xs ys

def max_binary (a : PrimitiveArray (List Nat)) : Option (List Nat) :=
  min_max_helper a.acc (fun x y => bytesLt x y)

def min_binary (a : PrimitiveArray (List Nat)) : Option (List Nat) :=
  min_max_helper a.acc (fun x y => bytesLt y x)

def max_string (a : PrimitiveArray (List Nat)) : Option (List Nat) :=
  min_max_helper a.acc (fun x y => bytesLt x y)

def min_string (a : PrimitiveArray (List Nat)) : Option (List Nat) :=
  min_max_helper a.acc (fun x y => bytesLt y x)

/-! ## Checked sum (`sum_checked`, lines 480-520) -/

/-- The error surface of the kernel: the checked reducers fail only with an
Overflow condition. -/
inductive ArrowError where
  | overflow : ArrowError
deriving DecidableEq

/-- Modelled from the spec: the checked-addition capability of the native
type, failing with Overflow instead of wrapping. -/
structure CheckedOps (α : Type) where
  addChecked : α → α → Except ArrowError α

/-- `pub fn sum_checked`: Ok none when all slots are null; otherwise a
try-fold of checked addition — over the whole buffer when no bitmap is
present, over the valid indices otherwise — aborting on the first overflow
with no partial sum surfaced. -/
def sum_checked [Inhabited α] (ops : NumOps α) (cops : CheckedOps α)
    (a : PrimitiveArray α) : Except ArrowError (Option α) :=
  if a.null_count = a.len then .ok none
  else match a.validity with
    | none => (a.values.foldlM cops.addChecked ops.zero).map some
    | some bits =>
        ((validIdxs (some bits) a.len).foldlM
          (fun s idx => cops.addChecked s (a.acc.value idx)) ops.zero).map some

/-! ## Dictionary dispatch (lines 160-268) -/

/-- A dynamically typed argument of the `*_array` entry points: either a
plain primitive array or a dictionary (index array + values array). -/
inductive AggArray (α : Type) where
  | primitive (p : PrimitiveArray α)
  | dictionary (keys : PrimitiveArray Nat) (vals : List α)

/-- Modelled from the spec: the accessor of a downcast dictionary array —
logical length and validity come from the index array, and a value read
resolves the index through the values array. -/
def dictAcc [Inhabited α] (keys : PrimitiveArray Nat) (vals : List α) : Accessor α :=
  ⟨keys.len, keys.validity, fun i => vals.getD (keys.acc.value i) default⟩

/-- `pub fn sum_array`: the dictionary branch folds wrapping addition over
the lazily resolved logical sequence, skipping nulls; other arrays delegate
to `sum`. -/
def sum_array [Inhabited α] (ops : NumOps α) : AggArray α → Option α
  | .primitive p => sum ops p
  | .dictionary keys vals =>
      if (dictAcc keys vals : Accessor α).null_count = (dictAcc keys vals : Accessor α).len
      then none
      else some ((arrayIter (dictAcc keys vals)).foldl
        (fun s v? => match v? with | some v => ops.add s v | none => s) ops.zero)

/-- `pub fn sum_array_checked`: the dictionary branch try-folds checked
addition over the resolved logical sequence; other arrays delegate to
`sum_checked`. -/
def sum_array_checked [Inhabited α] (ops : NumOps α) (cops : CheckedOps α) :
    AggArray α → Except ArrowError (Option α)
  | .primitive p => sum_checked ops cops p
  | .dictionary keys vals =>
      if (dictAcc keys vals : Accessor α).null_count = (dictAcc keys vals : Accessor α).len
      then .ok none
      else ((arrayIter (dictAcc keys vals)).foldlM
        (fun s v? => match v? with | some v => cops.addChecked s v | none => .ok s)
        ops.zero).map some

/-- `fn min_max_array_helper`: dictionaries go through the generic reducer
over the resolving accessor, other arrays through the plain kernel. -/
def min_max_array_helper [Inhabited α] (cmp : α → α → Bool)
    (m : PrimitiveArray α → Option α) : AggArray α → Option α
  | .dictionary keys vals => min_max_helper (dictAcc keys vals) cmp
  | .primitive p => m p

/-- `pub fn min_array`. -/
def min_array [Inhabited α] (o : OrdOps α) : AggArray α → Option α :=
  min_max_array_helper (minCmp o) (min o)

/-- `pub fn max_array`. -/
def max_array [Inhabited α] (o : OrdOps α) : AggArray α → Option α :=
  min_max_array_helper (maxCmp o) (max o)

/-- The fully expanded primitive array a dictionary denotes: one resolved
value per logical slot, under the index array's validity. -/
def expandDict [Inhabited α] (keys : PrimitiveArray Nat) (vals : List α) :
    PrimitiveArray α :=
  ⟨(List.range keys.len).map fun i => (dictAcc keys vals : Accessor α).value i,
    keys.validity⟩

theorem filterMap_ite (p : β → Bool) (f : β → γ) :
    ∀ l : List β,
      (l.filterMap fun i => if p i then some (f i) else none) = (l.filter p).map f := by
  intro l
  induction l with
  | nil => rfl
  | cons x xs ih =>
      cases hp : p x with
      | true => simp [List.filterMap_cons, List.filter_cons, hp, ih]
      | false => simp [List.filterMap_cons, List.filter_cons, hp, ih]

theorem arrayIter_filterMap [Inhabited α] (a : PrimitiveArray α) (hwf : a.wf = true) :
    (arrayIter a.acc).filterMap id = a.validVals := by
  have h1 : (arrayIter a.acc).filterMap id
      = ((List.range a.acc.len).filter a.acc.isValid).map a.acc.value := by
    unfold arrayIter
    rw [List.filterMap_map]
    exact filterMap_ite a.acc.isValid a.acc.value (List.range a.acc.len)
  rw [h1]
  obtain ⟨values, validity⟩ := a
  cases validity with
  | none =>
      have hfil : (List.range values.length).filter
            (PrimitiveArray.acc ⟨values, none⟩).isValid = List.range values.length := by
        apply List.filter_eq_self.mpr
        intro i _
        rfl
      show ((List.range values.length).filter _).map _ = values
      have hv : (PrimitiveArray.acc ⟨values, none⟩ : Accessor α).value
          = fun i => values.getD i default := rfl
      rw [hfil, hv, range_map_getD]
  | some bits =>
      have hblen : bits.length = values.length := PrimitiveArray.wf_some hwf rfl
      show ((List.range values.length).filter fun i => bits.getD i false).map
          (fun i => values.getD i default) = zipValids values bits
      exact validIdxs_map_getD values bits hblen

theorem foldl_skip_none {ops : NumOps α} :
    ∀ (l : List (Option α)) (s : α),
      l.foldl (fun s v? => match v? with | some v => ops.add s v | none => s) s
        = (l.filterMap id).foldl ops.add s := by
  intro l
  induction l with
  | nil => intro s; rfl
  | cons x xs ih =>
      intro s
      cases x with
      | some v => simp [List.filterMap_cons, ih]
      | none => simp [List.filterMap_cons, ih]

theorem foldlM_skip_none {cops : CheckedOps α} :
    ∀ (l : List (Option α)) (s : α),
      l.foldlM (fun s v? => match v? with
        | some v => cops.addChecked s v
        | none => Except.ok s) s
        = (l.filterMap id).foldlM cops.addChecked s := by
  intro l
  induction l with
  | nil => intro s; rfl
  | cons x xs ih =>
      intro s
      cases x with
      | some v =>
          show cops.addChecked s v >>= _ = _
          simp only [List.filterMap_cons]
          show _ = cops.addChecked s v >>= _
          cases cops.addChecked s v with
          | ok r => simpa using ih r
          | error e => rfl
      | none =>
          simp only [List.filterMap_cons]
          show Except.ok s >>= _ = _
          simpa using ih s

theorem foldlM_comp (f : γ → δ → Except ArrowError γ) (g : β → δ) :
    ∀ (l : List β) (s : γ),
      (l.map g).foldlM f s = l.foldlM (fun s x => f s (g x)) s := by
  intro l
  induction l with
  | nil => intro s; rfl
  | cons x xs ih =>
      intro s
      show f s (g x) >>= _ = f s (g x) >>= _
      cases f s (g x) with
      | ok r => simpa using ih r
      | error e => rfl

theorem validVals_eq_map_validIdxs [Inhabited α] (a : PrimitiveArray α)
    (hwf : a.wf = true) :
    a.validVals = (validIdxs a.validity a.len).map a.acc.value := by
  obtain ⟨values, validity⟩ := a
  cases validity with
  | none =>
      show values = (List.range values.length).map fun i => values.getD i default
      exact (range_map_getD values).symm
  | some bits =>
      have hblen : bits.length = values.length := PrimitiveArray.wf_some hwf rfl
      show zipValids values bits
          = ((List.range values.length).filter fun i => bits.getD i false).map
              fun i => values.getD i default
      exact (validIdxs_map_getD values bits hblen).symm

/-- The checked sum is the left-to-right try-fold of checked addition over
the logical valid values from the zero seed. -/
theorem sum_checked_eq [Inhabited α] (ops : NumOps α) (cops : CheckedOps α)
    (a : PrimitiveArray α) (hwf : a.wf = true) :
    sum_checked ops cops a
      = if a.null_count = a.len then .ok none
        else (a.validVals.foldlM cops.addChecked ops.zero).map some := by
  by_cases hnc : a.null_count = a.len
  · unfold sum_checked
    rw [if_pos hnc, if_pos hnc]
  · rw [if_neg hnc]
    obtain ⟨values, validity⟩ := a
    cases validity with
    | none =>
        unfold sum_checked
        rw [if_neg hnc]
        rfl
    | some bits =>
        unfold sum_checked
        rw [if_neg hnc]
        rw [validVals_eq_map_validIdxs ⟨values, some bits⟩ hwf, foldlM_comp]

/-- Index-order congruence of the generic reducer: two accessors with the
same length, the same validity and equal values below the length reduce to
the same result. -/
theorem min_max_helper_congr (a b : Accessor α) (cmp : α → α → Bool)
    (hlen : a.len = b.len) (hval : a.validity = b.validity)
    (hv : ∀ i, i < a.len → a.value i = b.value i) :
    min_max_helper a cmp = min_max_helper b cmp := by
  have hnc : a.null_count = b.null_count := by
    unfold Accessor.null_count
    rw [hval]
  have hidx : ∀ i ∈ validIdxs a.validity a.len, i < a.len := by
    intro i hi
    cases hvv : a.validity with
    | none =>
        rw [hvv] at hi
        exact List.mem_range.mp hi
    | some bits =>
        rw [hvv] at hi
        exact List.mem_range.mp (List.mem_of_mem_filter hi)
  unfold min_max_helper
  rw [← hlen, ← hnc, ← hval]
  by_cases h1 : a.null_count = a.len
  · rw [if_pos h1, if_pos h1]
  · rw [if_neg h1, if_neg h1]
    by_cases h2 : a.null_count = 0
    · rw [if_pos h2, if_pos h2]
      congr 1
      exact List.map_congr_left fun i hi => hv i (List.mem_range.mp hi)
    · rw [if_neg h2, if_neg h2]
      rw [reduceList_map cmp a.value, reduceList_map cmp b.value]
      congr 1
      exact List.map_congr_left fun i hi => hv i (hidx i hi)

/-! ## The Int32 native type.

Modelled from the spec: the 32-bit signed element type with wrapping and
checked addition (`add_wrapping` wraps per two's complement modular
arithmetic, `add_checked` fails with Overflow when the exact sum leaves the
representable range). -/

def inRange32 (x : Int) : Prop := -2147483648 ≤ x ∧ x < 2147483648

instance : DecidablePred inRange32 := fun x => by unfold inRange32; infer_instance

def I32 := {x : Int // inRange32 x}

instance : DecidableEq I32 := inferInstanceAs (DecidableEq {x : Int // inRange32 x})

instance : Inhabited I32 := ⟨⟨0, by decide⟩⟩

def I32.val (a : I32) : Int := Subtype.val a

/-- Two's complement wrap of an integer into the i32 range. -/
def wrap32 (x : Int) : Int := (x + 2147483648) % 4294967296 - 2147483648

theorem wrap32_inRange (x : Int) : inRange32 (wrap32 x) := by
  unfold inRange32 wrap32
  constructor
  · have h := Int.emod_nonneg (x + 2147483648) (by norm_num : (4294967296 : Int) ≠ 0)
    omega
  · have h := Int.emod_lt_of_pos (x + 2147483648) (by norm_num : (0 : Int) < 4294967296)
    omega

theorem wrap32_eq_self {x : Int} (h : inRange32 x) : wrap32 x = x := by
  unfold inRange32 at h
  unfold wrap32
  have : (x + 2147483648) % 4294967296 = x + 2147483648 :=
    Int.emod_eq_of_lt (by omega) (by omega)
  omega

theorem wrap32_add_left (a b : Int) : wrap32 (wrap32 a + b) = wrap32 (a + b) := by
  unfold wrap32
  have h1 : (a + 2147483648) % 4294967296 - 2147483648 + b + 2147483648
      = (a + 2147483648) % 4294967296 + b := by ring
  rw [h1, Int.emod_add_emod]
  have h2 : a + 2147483648 + b = a + b + 2147483648 := by ring
  rw [h2]

theorem wrap32_add_right (a b : Int) : wrap32 (a + wrap32 b) = wrap32 (a + b) := by
  unfold wrap32
  have h1 : a + ((b + 2147483648) % 4294967296 - 2147483648) + 2147483648
      = (b + 2147483648) % 4294967296 + a := by ring
  rw [h1, Int.emod_add_emod]
  have h2 : b + 2147483648 + a = a + b + 2147483648 := by ring
  rw [h2]

/-- Wrapping i32 addition with its zero. -/
def i32ops : NumOps I32 :=
  ⟨⟨0, by decide⟩, fun a b => ⟨wrap32 (a.val + b.val), wrap32_inRange _⟩⟩

theorem i32_lawful : LawfulAdd i32ops := by
  constructor
  · intro a b
    apply Subtype.ext
    show wrap32 (I32.val a + I32.val b) = wrap32 (I32.val b + I32.val a)
    rw [Int.add_comm]
  · intro a b c
    apply Subtype.ext
    show wrap32 (wrap32 (I32.val a + I32.val b) + I32.val c)
        = wrap32 (I32.val a + wrap32 (I32.val b + I32.val c))
    rw [wrap32_add_left, wrap32_add_right, Int.add_assoc]
  · intro a
    apply Subtype.ext
    show wrap32 ((0 : Int) + I32.val a) = I32.val a
    rw [Int.zero_add]
    exact wrap32_eq_self a.property

/-- Checked i32 addition. -/
def i32checked : CheckedOps I32 :=
  ⟨fun a b =>
    if h : inRange32 (a.val + b.val) then .ok ⟨a.val + b.val, h⟩
    else .error .overflow⟩

/-- Exact mathematical sum of i32 values. -/
def intSum (l : List I32) : Int := (l.map I32.val).sum

theorem intSum_nil : intSum [] = 0 := rfl

theorem intSum_cons (x : I32) (l : List I32) : intSum (x :: l) = x.val + intSum l := by
  unfold intSum
  rw [List.map_cons, List.sum_cons]

theorem i32_fold_wrap : ∀ (l : List I32) (a : I32),
    (l.foldl i32ops.add a).val = wrap32 (a.val + intSum l) := by
  intro l
  induction l with
  | nil =>
      intro a
      rw [intSum_nil, Int.add_zero]
      exact (wrap32_eq_self a.property).symm
  | cons x xs ih =>
      intro a
      rw [List.foldl_cons, ih, intSum_cons]
      show wrap32 (wrap32 (a.val + x.val) + intSum xs) = _
      rw [wrap32_add_left]
      have : a.val + x.val + intSum xs = a.val + (x.val + intSum xs) := by ring
      rw [this]

theorem msum_i32 (l : List I32) : (msum i32ops l).val = wrap32 (intSum l) := by
  show (l.foldl i32ops.add i32ops.zero).val = _
  rw [i32_fold_wrap l i32ops.zero]
  show wrap32 ((0 : Int) + intSum l) = _
  rw [Int.zero_add]

theorem checkedFold_error_iff : ∀ (l : List I32) (s : I32),
    l.foldlM i32checked.addChecked s = .error .overflow
      ↔ ∃ k, k < l.length ∧ ¬ inRange32 (s.val + intSum (l.take (k + 1))) := by
  intro l
  induction l with
  | nil =>
      intro s
      constructor
      · intro h
        exact Except.noConfusion h
      · rintro ⟨k, hk, _⟩
        simp at hk
  | cons x xs ih =>
      intro s
      show (i32checked.addChecked s x >>= fun s2 => xs.foldlM i32checked.addChecked s2) = _
        ↔ _
      by_cases h : inRange32 (s.val + x.val)
      · have hstep : i32checked.addChecked s x = .ok ⟨s.val + x.val, h⟩ := by
          unfold i32checked
          exact dif_pos h
        rw [hstep]
        show xs.foldlM i32checked.addChecked ⟨s.val + x.val, h⟩ = _ ↔ _
        rw [ih ⟨s.val + x.val, h⟩]
        constructor
        · rintro ⟨k, hk, hbad⟩
          refine ⟨k + 1, by simp; omega, ?_⟩
          have htake : intSum ((x :: xs).take (k + 1 + 1))
              = x.val + intSum (xs.take (k + 1)) := by
            rw [List.take_succ_cons, intSum_cons]
          rw [htake]
          have harr : s.val + (x.val + intSum (xs.take (k + 1)))
              = s.val + x.val + intSum (xs.take (k + 1)) := by ring
          rw [harr]
          exact hbad
        · rintro ⟨k, hk, hbad⟩
          cases k with
          | zero =>
              exfalso
              apply hbad
              have htake : intSum ((x :: xs).take 1) = x.val := by
                show intSum [x] = x.val
                rw [intSum_cons, intSum_nil, Int.add_zero]
              rw [htake]
              exact h
          | succ k =>
              refine ⟨k, by simp at hk; omega, ?_⟩
              have htake : intSum ((x :: xs).take (k + 1 + 1))
                  = x.val + intSum (xs.take (k + 1)) := by
                rw [List.take_succ_cons, intSum_cons]
              rw [htake] at hbad
              have harr : s.val + (x.val + intSum (xs.take (k + 1)))
                  = s.val + x.val + intSum (xs.take (k + 1)) := by ring
              rw [harr] at hbad
              exact hbad
      · have hstep : i32checked.addChecked s x = .error .overflow := by
          unfold i32checked
          exact dif_neg h
        rw [hstep]
        constructor
        · intro _
          refine ⟨0, by simp, ?_⟩
          have htake : intSum ((x :: xs).take 1) = x.val := by
            show intSum [x] = x.val
            rw [intSum_cons, intSum_nil, Int.add_zero]
          rw [htake]
          exact h
        · intro _
          rfl

theorem checkedFold_ok : ∀ (l : List I32) (s : I32),
    (∀ k, k < l.length → inRange32 (s.val + intSum (l.take (k + 1)))) →
    ∃ r : I32, l.foldlM i32checked.addChecked s = .ok r ∧ r.val = s.val + intSum l := by
  intro l
  induction l with
  | nil =>
      intro s _
      exact ⟨s, rfl, by rw [intSum_nil, Int.add_zero]⟩
  | cons x xs ih =>
      intro s hall
      have h0 : inRange32 (s.val + x.val) := by
        have := hall 0 (by simp)
        have htake : intSum ((x :: xs).take 1) = x.val := by
          show intSum [x] = x.val
          rw [intSum_cons, intSum_nil, Int.add_zero]
        rw [htake] at this
        exact this
      have hstep : i32checked.addChecked s x = .ok ⟨s.val + x.val, h0⟩ := by
        unfold i32checked
        exact dif_pos h0
      have hrest : ∀ k, k < xs.length →
          inRange32 ((s.val + x.val) + intSum (xs.take (k + 1))) := by
        intro k hk
        have := hall (k + 1) (by simp; omega)
        have htake : intSum ((x :: xs).take (k + 1 + 1))
            = x.val + intSum (xs.take (k + 1)) := by
          rw [List.take_succ_cons, intSum_cons]
        rw [htake] at this
        have harr : s.val + (x.val + intSum (xs.take (k + 1)))
            = s.val + x.val + intSum (xs.take (k + 1)) := by ring
        rw [harr] at this
        exact this
      obtain ⟨r, hr, hrv⟩ := ih ⟨s.val + x.val, h0⟩ hrest
      refine ⟨r, ?_, ?_⟩
      · show (i32checked.addChecked s x >>= fun s2 => xs.foldlM i32checked.addChecked s2)
            = .ok r
        rw [hstep]
        exact hr
      · rw [hrv, intSum_cons]
        show s.val + x.val + intSum xs = _
        ring

/-! ## Typed bitwise entry points (on a `w`-bit unsigned word domain) -/

/-- Modelled from the spec: `T::Native::ONE.neg_wrapping()` on a `w`-bit
unsigned integer type — the all-ones word. -/
def allOnes (w : Nat) : Nat := 2 ^ w - 1

/-- `pub fn bit_and` (identity: all ones). -/
def bit_and (w : Nat) (a : PrimitiveArray Nat) : Option Nat :=
  bit_operation Nat.land (allOnes w) a

/-- `pub fn bit_or` (identity: zero). -/
def bit_or (a : PrimitiveArray Nat) : Option Nat :=
  bit_operation Nat.lor 0 a

/-- `pub fn bit_xor` (identity: zero). -/
def bit_xor (a : PrimitiveArray Nat) : Option Nat :=
  bit_operation Nat.xor 0 a

/-! ## Dictionary expansion equivalence -/

theorem getD_map_range [Inhabited γ] (f : Nat → γ) (n i : Nat) (h : i < n) :
    ((List.range n).map f).getD i default = f i := by
  have hlen : i < ((List.range n).map f).length := by simp [h]
  rw [List.getD_eq_getElem _ _ hlen, List.getElem_map, List.getElem_range]

theorem expandDict_len [Inhabited α] (keys : PrimitiveArray Nat) (vals : List α) :
    (expandDict keys vals).len = keys.len := by
  unfold expandDict PrimitiveArray.len
  simp

theorem expandDict_wf [Inhabited α] (keys : PrimitiveArray Nat) (vals : List α)
    (hwf : keys.wf = true) : (expandDict keys vals).wf = true := by
  unfold PrimitiveArray.wf at *
  cases hk : keys.validity with
  | none =>
      show (match (expandDict keys vals).validity with
        | none => true
        | some bits => bits.length == (expandDict keys vals).values.length) = true
      have : (expandDict keys vals).validity = none := by
        unfold expandDict
        exact hk
      rw [this]
  | some bits =>
      rw [hk] at hwf
      show (match (expandDict keys vals).validity with
        | none => true
        | some b2 => b2.length == (expandDict keys vals).values.length) = true
      have hv : (expandDict keys vals).validity = some bits := by
        unfold expandDict
        exact hk
      rw [hv]
      have hl : (expandDict keys vals).values.length = keys.len := expandDict_len keys vals
      simp only [hl]
      simpa [PrimitiveArray.len] using hwf

theorem expand_acc_agree [Inhabited α] (keys : PrimitiveArray Nat) (vals : List α) :
    (dictAcc keys vals : Accessor α).len = (expandDict keys vals).acc.len
    ∧ (dictAcc keys vals : Accessor α).validity = (expandDict keys vals).acc.validity
    ∧ ∀ i, i < (dictAcc keys vals : Accessor α).len →
        (dictAcc keys vals : Accessor α).value i = (expandDict keys vals).acc.value i := by
  refine ⟨?_, rfl, ?_⟩
  · show keys.len = (expandDict keys vals).len
    exact (expandDict_len keys vals).symm
  · intro i hi
    show (dictAcc keys vals : Accessor α).value i
        = ((List.range keys.len).map fun j => (dictAcc keys vals : Accessor α).value j).getD
            i default
    rw [getD_map_range _ keys.len i hi]

theorem arrayIter_congr (a b : Accessor α) (hlen : a.len = b.len)
    (hval : a.validity = b.validity) (hv : ∀ i, i < a.len → a.value i = b.value i) :
    arrayIter a = arrayIter b := by
  unfold arrayIter
  rw [← hlen]
  apply List.map_congr_left
  intro i hi
  have hiv : a.isValid i = b.isValid i := by
    unfold Accessor.isValid
    rw [hval]
  rw [hiv, hv i (List.mem_range.mp hi)]

/-- Congruence of the logical valid values: arrays with the same validity,
the same length and equal values at every valid slot have the same valid
values, whatever sits at the null slots. -/
theorem zipValids_congr :
    ∀ (v₁ v₂ : List α) (bits : List Bool),
      (∀ i, bits.getD i false = true → v₁[i]? = v₂[i]?) →
      v₁.length = v₂.length →
      zipValids v₁ bits = zipValids v₂ bits := by
  intro v₁
  induction v₁ with
  | nil =>
      intro v₂ bits _ hlen
      have : v₂ = [] := List.eq_nil_of_length_eq_zero (by simpa using hlen.symm)
      subst this
      rfl
  | cons x₁ xs₁ ih =>
      intro v₂ bits hv hlen
      cases v₂ with
      | nil => simp at hlen
      | cons x₂ xs₂ =>
          simp only [List.length_cons, Nat.succ.injEq] at hlen
          cases bits with
          | nil => rfl
          | cons b bs =>
              have htail : zipValids xs₁ bs = zipValids xs₂ bs := by
                apply ih xs₂ bs _ hlen
                intro i hbi
                have := hv (i + 1) (by simpa using hbi)
                simpa using this
              cases b with
              | true =>
                  have hhead : x₁ = x₂ := by
                    have := hv 0 rfl
                    simpa using this
                  simp [zipValids, hhead, htail]
              | false =>
                  simp [zipValids, htail]

/-! ## Remaining glue -/

theorem null_count_le_len (a : PrimitiveArray α) (hwf : a.wf = true) :
    a.null_count ≤ a.len := by
  obtain ⟨values, validity⟩ := a
  cases validity with
  | none => exact Nat.zero_le _
  | some bits =>
      have hblen : bits.length = values.length := PrimitiveArray.wf_some hwf rfl
      show bits.count false ≤ values.length
      rw [← hblen]
      exact List.count_le_length _ _

theorem getD_true_lt {bits : List Bool} {i : Nat} (h : bits.getD i false = true) :
    i < bits.length := by
  by_contra hge
  rw [List.getD_eq_default _ _ (Nat.le_of_not_lt hge)] at h
  exact Bool.noConfusion h

def PrimitiveArray.isValid (a : PrimitiveArray α) (i : Nat) : Bool :=
  match a.validity with
  | none => true
  | some bits => bits.getD i false

/-- Congruence of the logical valid values at the array level: same length,
same validity, equal values at valid slots. -/
theorem validVals_eq_of_agree (a b : PrimitiveArray α) (hwfa : a.wf = true)
    (hlen : a.len = b.len) (hval : a.validity = b.validity)
    (hv : ∀ i, i < a.len → a.isValid i = true → a.values[i]? = b.values[i]?) :
    a.validVals = b.validVals := by
  obtain ⟨v₁, validity₁⟩ := a
  obtain ⟨v₂, validity₂⟩ := b
  have hveq : validity₁ = validity₂ := hval
  subst hveq
  cases validity₁ with
  | none =>
      show v₁ = v₂
      apply List.ext_getElem?
      intro i
      by_cases hi : i < v₁.length
      · exact hv i hi rfl
      · have h1 : v₁[i]? = none := List.getElem?_eq_none (Nat.le_of_not_lt hi)
        have h2 : v₂[i]? = none := by
          apply List.getElem?_eq_none
          have : v₁.length = v₂.length := hlen
          omega
        rw [h1, h2]
  | some bits =>
      show zipValids v₁ bits = zipValids v₂ bits
      apply zipValids_congr
      · intro i hb
        have hib : i < bits.length := getD_true_lt hb
        have hblen : bits.length = v₁.length :=
          PrimitiveArray.wf_some hwfa rfl
        have hib2 : i < v₁.length := by rw [hblen] at hib; exact hib
        exact hv i hib2 hb
      · exact hlen

/-- Reference semantics written from the spec sentence: an Iterator-style
reduce (naive linear fold seeded with the first element) over the logical
valid values in index order. -/
def minMaxSpec (cmp : α → α → Bool) (a : PrimitiveArray α) : Option α :=
  reduceList cmp a.validVals

/-- Modelled from the spec: integer comparison operations (NaN
classification is constantly false on integer types). -/
def i32ord : OrdOps I32 :=
  ⟨fun a b => a.val == b.val,
   fun a b => decide (a.val < b.val),
   fun a b => decide (a.val > b.val)⟩

theorem logical_determines [Inhabited α] (a b : PrimitiveArray α)
    (hwfa : a.wf = true) (hwfb : b.wf = true)
    (hlog : arrayIter a.acc = arrayIter b.acc) :
    a.len = b.len ∧ a.null_count = b.null_count ∧ a.validVals = b.validVals := by
  have h1 : (arrayIter a.acc).length = a.len := by
    simp [arrayIter, PrimitiveArray.acc]
  have h2 : (arrayIter b.acc).length = b.len := by
    simp [arrayIter, PrimitiveArray.acc]
  have hlen : a.len = b.len := by rw [← h1, ← h2, hlog]
  have hvv : a.validVals = b.validVals := by
    rw [← arrayIter_filterMap a hwfa, ← arrayIter_filterMap b hwfb, hlog]
  have hnc : a.null_count = b.null_count := by
    have ha := validVals_length a hwfa
    have hb := validVals_length b hwfb
    have hla := null_count_le_len a hwfa
    have hlb := null_count_le_len b hwfb
    rw [hvv] at ha
    omega
  exact ⟨hlen, hnc, hvv⟩

/-- C1: over any length and validity pattern, the chunked `sum` kernel and
the generic min/max reducer return exactly the value of a naive linear fold
over the logical (value, validity) sequence; and any two arrays presenting
the same logical sequence — in particular a sliced view and an independently
built array with the same logical elements — aggregate identically. -/
theorem chunked_agg_refines_naive {α : Type} [Inhabited α] (ops : NumOps α)
    (L : LawfulAdd ops) (o : OrdOps α) (a b : PrimitiveArray α)
    (hwfa : a.wf = true) (hwfb : b.wf = true) :
    (sum ops a = sumSpec ops a)
    ∧ (min o a = minMaxSpec (minCmp o) a)
    ∧ (max o a = minMaxSpec (maxCmp o) a)
    ∧ (arrayIter a.acc = arrayIter b.acc →
        sum ops a = sum ops b ∧ min o a = min o b ∧ max o a = max o b) := by
  refine ⟨sum_eq_sumSpec L a hwfa, min_max_helper_eq a hwfa _, min_max_helper_eq a hwfa _,
    ?_⟩
  intro hlog
  obtain ⟨hlen, hnc, hvv⟩ := logical_determines a b hwfa hwfb hlog
  refine ⟨?_, ?_, ?_⟩
  · rw [sum_eq_sumSpec L a hwfa, sum_eq_sumSpec L b hwfb]
    unfold sumSpec
    rw [hlen, hnc, hvv]
  · show min_max_helper a.acc (minCmp o) = min_max_helper b.acc (minCmp o)
    rw [min_max_helper_eq a hwfa, min_max_helper_eq b hwfb, hvv]
  · show min_max_helper a.acc (maxCmp o) = min_max_helper b.acc (maxCmp o)
    rw [min_max_helper_eq a hwfa, min_max_helper_eq b hwfb, hvv]

/-- Concrete i32 literal through the wrap. -/
def mkI32 (n : Int) : I32 := ⟨wrap32 n, wrap32_inRange n⟩

def c1a : PrimitiveArray I32 :=
  ⟨(List.range 65).map fun i => mkI32 i,
   some ((List.range 65).map fun i => i % 3 != 0)⟩

def c1b : PrimitiveArray I32 :=
  ⟨(List.range 65).map fun i => if i % 3 == 0 then mkI32 (i + 777) else mkI32 i,
   some ((List.range 65).map fun i => i % 3 != 0)⟩

theorem chunked_agg_refines_naive_witness :
    (sum i32ops c1a = sumSpec i32ops c1a)
    ∧ (min i32ord c1a = minMaxSpec (minCmp i32ord) c1a)
    ∧ (max i32ord c1a = minMaxSpec (maxCmp i32ord) c1a)
    ∧ (arrayIter c1a.acc = arrayIter c1b.acc →
        sum i32ops c1a = sum i32ops c1b ∧ min i32ord c1a = min i32ord c1b
          ∧ max i32ord c1a = max i32ord c1b) :=
  chunked_agg_refines_naive i32ops i32_lawful i32ord c1a c1b (by decide) (by decide)

/-- C2: for a non-all-null float array, min yields NaN only if every valid
element is NaN; max yields NaN whenever some valid element is NaN; and
whenever a finite valid element exists, min is exactly the minimum of the
finite valid values — NaN position and interleaved nulls notwithstanding. -/
theorem float_min_max_nan (a : PrimitiveArray FloatVal) (hwf : a.wf = true)
    (hnc : ¬ a.null_count = a.len) :
    (∀ r, min floatOrd a = some r → is_nan floatOrd r = true →
        ∀ v ∈ a.validVals, v = FloatVal.nan)
  ∧ (FloatVal.nan ∈ a.validVals → max floatOrd a = some FloatVal.nan)
  ∧ (∀ m, finMin? a.validVals = some m → min floatOrd a = some (FloatVal.fin m)) := by
  have hne : a.validVals ≠ [] := by
    have h1 := validVals_length a hwf
    have h2 := null_count_le_len a hwf
    intro hnil
    rw [hnil] at h1
    simp only [List.length_nil] at h1
    omega
  have hmin : min floatOrd a = some (toF (finMin? a.validVals)) := by
    show min_max_helper a.acc (minCmp floatOrd) = _
    rw [min_max_helper_eq a hwf, reduceList_min_float _ hne]
  have hmax : max floatOrd a
      = some (if hasNan a.validVals then FloatVal.nan else toF (finMax? a.validVals)) := by
    show min_max_helper a.acc (maxCmp floatOrd) = _
    rw [min_max_helper_eq a hwf, reduceList_max_float _ hne]
  refine ⟨?_, ?_, ?_⟩
  · intro r hr hnan v hvv
    rw [hmin] at hr
    have hreq : toF (finMin? a.validVals) = r := Option.some.inj hr
    have hrnan : r = FloatVal.nan := by
      cases r with
      | nan => rfl
      | fin q => simp [is_nan, floatOrd] at hnan
    have hnone : finMin? a.validVals = none := by
      cases hfm : finMin? a.validVals with
      | none => rfl
      | some m =>
          rw [hfm] at hreq
          rw [hrnan] at hreq
          exact FloatVal.noConfusion hreq
    have hfv : finVals a.validVals = [] := by
      cases hfv : finVals a.validVals with
      | nil => rfl
      | cons x xs =>
          unfold finMin? at hnone
          rw [hfv] at hnone
          exact Option.noConfusion hnone
    exact (finVals_eq_nil_iff a.validVals).mp hfv v hvv
  · intro hmem
    rw [hmax, if_pos ((hasNan_iff _).mpr hmem)]
  · intro m hm
    rw [hmin, hm]
    rfl

def c2arr : PrimitiveArray FloatVal :=
  ⟨[.fin 5, .fin 77, .nan, .fin 2, .fin 9], some [true, false, true, true, true]⟩

theorem float_min_max_nan_witness :
    max floatOrd c2arr = some FloatVal.nan
    ∧ min floatOrd c2arr = some (FloatVal.fin 2) :=
  ⟨(float_min_max_nan c2arr (by decide) (by decide)).2.1 (by decide),
   (float_min_max_nan c2arr (by decide) (by decide)).2.2 2 (by decide)⟩

/-- C3: an all-null (or empty) array makes every operator — wrapping and
checked sums, min/max, the bitwise family, the boolean family, the
binary/string reducers and the dictionary-aware entry points — return the
no-value result without inspecting the data buffer (the buffers here are
universally quantified). -/
theorem all_null_returns_none {α : Type} [Inhabited α] (ops : NumOps α)
    (cops : CheckedOps α) (o : OrdOps α) (op2 : α → α → α) (dflt : α) (w : Nat)
    (a : PrimitiveArray α) (an : PrimitiveArray Nat) (ab : PrimitiveArray Bool)
    (abin : PrimitiveArray (List Nat)) (keys : PrimitiveArray Nat) (vals : List α)
    (h : a.null_count = a.len) (hn : an.null_count = an.len)
    (hb : ab.null_count = ab.len) (hbin : abin.null_count = abin.len)
    (hk : keys.null_count = keys.len) :
    sum ops a = none
  ∧ sum_checked ops cops a = .ok none
  ∧ min o a = none ∧ max o a = none
  ∧ bit_operation op2 dflt a = none
  ∧ bit_and w an = none ∧ bit_or an = none ∧ bit_xor an = none
  ∧ bool_and ab = none ∧ bool_or ab = none
  ∧ min_boolean ab = none ∧ max_boolean ab = none
  ∧ min_binary abin = none ∧ max_binary abin = none
  ∧ min_string abin = none ∧ max_string abin = none
  ∧ sum_array ops (AggArray.dictionary keys vals) = none
  ∧ sum_array_checked ops cops (AggArray.dictionary keys vals) = .ok none
  ∧ min_array o (AggArray.dictionary keys vals) = none
  ∧ max_array o (AggArray.dictionary keys vals) = none
  ∧ sum_array ops (AggArray.primitive a) = none
  ∧ sum_array_checked ops cops (AggArray.primitive a) = .ok none
  ∧ min_array o (AggArray.primitive a) = none
  ∧ max_array o (AggArray.primitive a) = none := by
  have hsum : sum ops a = none := by
    unfold sum; rw [if_pos h]
  have hchk : sum_checked ops cops a = .ok none := by
    unfold sum_checked; rw [if_pos h]
  have hmin : min o a = none := by
    unfold min min_max_helper
    rw [if_pos (show (PrimitiveArray.acc a).null_count = (PrimitiveArray.acc a).len from h)]
  have hmax : max o a = none := by
    unfold max min_max_helper
    rw [if_pos (show (PrimitiveArray.acc a).null_count = (PrimitiveArray.acc a).len from h)]
  have hbit : bit_operation op2 dflt a = none := by
    unfold bit_operation; rw [if_pos h]
  have hband : bit_and w an = none := by
    unfold bit_and bit_operation; rw [if_pos hn]
  have hbor : bit_or an = none := by
    unfold bit_or bit_operation; rw [if_pos hn]
  have hbxor : bit_xor an = none := by
    unfold bit_xor bit_operation; rw [if_pos hn]
  have hba : bool_and ab = none := by
    unfold bool_and; rw [if_pos hb]
  have hbo : bool_or ab = none := by
    unfold bool_or; rw [if_pos hb]
  have hmb : min_boolean ab = none := by
    unfold min_boolean; rw [if_pos hb]
  have hxb : max_boolean ab = none := by
    unfold max_boolean; rw [if_pos hb]
  have hminbin : min_binary abin = none := by
    unfold min_binary min_max_helper
    rw [if_pos
      (show (PrimitiveArray.acc abin).null_count = (PrimitiveArray.acc abin).len from hbin)]
  have hmaxbin : max_binary abin = none := by
    unfold max_binary min_max_helper
    rw [if_pos
      (show (PrimitiveArray.acc abin).null_count = (PrimitiveArray.acc abin).len from hbin)]
  have hminstr : min_string abin = none := by
    unfold min_string min_max_helper
    rw [if_pos
      (show (PrimitiveArray.acc abin).null_count = (PrimitiveArray.acc abin).len from hbin)]
  have hmaxstr : max_string abin = none := by
    unfold max_string min_max_helper
    rw [if_pos
      (show (PrimitiveArray.acc abin).null_count = (PrimitiveArray.acc abin).len from hbin)]
  have hdsum : sum_array ops (AggArray.dictionary keys vals) = none := by
    have harm : sum_array ops (AggArray.dictionary keys vals)
        = if (dictAcc keys vals : Accessor α).null_count
            = (dictAcc keys vals : Accessor α).len
          then none
          else some ((arrayIter (dictAcc keys vals)).foldl
            (fun s v? => match v? with | some v => ops.add s v | none => s)
            ops.zero) := rfl
    rw [harm, if_pos (show (dictAcc keys vals : Accessor α).null_count
      = (dictAcc keys vals : Accessor α).len from hk)]
  have hdchk : sum_array_checked ops cops (AggArray.dictionary keys vals) = .ok none := by
    have harm : sum_array_checked ops cops (AggArray.dictionary keys vals)
        = if (dictAcc keys vals : Accessor α).null_count
            = (dictAcc keys vals : Accessor α).len
          then .ok none
          else ((arrayIter (dictAcc keys vals)).foldlM
            (fun s v? => match v? with
              | some v => cops.addChecked s v
              | none => Except.ok s) ops.zero).map some := rfl
    rw [harm, if_pos (show (dictAcc keys vals : Accessor α).null_count
      = (dictAcc keys vals : Accessor α).len from hk)]
  have hdmin : min_array o (AggArray.dictionary keys vals) = none := by
    have harm : min_array o (AggArray.dictionary keys vals)
        = min_max_helper (dictAcc keys vals) (minCmp o) := rfl
    rw [harm]
    unfold min_max_helper
    rw [if_pos (show (dictAcc keys vals : Accessor α).null_count
      = (dictAcc keys vals : Accessor α).len from hk)]
  have hdmax : max_array o (AggArray.dictionary keys vals) = none := by
    have harm : max_array o (AggArray.dictionary keys vals)
        = min_max_helper (dictAcc keys vals) (maxCmp o) := rfl
    rw [harm]
    unfold min_max_helper
    rw [if_pos (show (dictAcc keys vals : Accessor α).null_count
      = (dictAcc keys vals : Accessor α).len from hk)]
  exact ⟨hsum, hchk, hmin, hmax, hbit, hband, hbor, hbxor, hba, hbo, hmb, hxb,
    hminbin, hmaxbin, hminstr, hmaxstr, hdsum, hdchk, hdmin, hdmax, hsum, hchk,
    hmin, hmax⟩

def c3a : PrimitiveArray I32 := ⟨[mkI32 7, mkI32 9], some [false, false]⟩
def c3n : PrimitiveArray Nat := ⟨[3, 4, 5], some [false, false, false]⟩
def c3b : PrimitiveArray Bool := ⟨[true, false], some [false, false]⟩
def c3bin : PrimitiveArray (List Nat) := ⟨[], none⟩
def c3k : PrimitiveArray Nat := ⟨[0, 1, 2], some [false, false, false]⟩

theorem all_null_returns_none_witness :
    sum i32ops c3a = none
  ∧ sum_checked i32ops i32checked c3a = .ok none
  ∧ min i32ord c3a = none ∧ max i32ord c3a = none
  ∧ bit_operation i32ops.add i32ops.zero c3a = none
  ∧ bit_and 32 c3n = none ∧ bit_or c3n = none ∧ bit_xor c3n = none
  ∧ bool_and c3b = none ∧ bool_or c3b = none
  ∧ min_boolean c3b = none ∧ max_boolean c3b = none
  ∧ min_binary c3bin = none ∧ max_binary c3bin = none
  ∧ min_string c3bin = none ∧ max_string c3bin = none
  ∧ sum_array i32ops (AggArray.dictionary c3k [mkI32 10, mkI32 11, mkI32 12]) = none
  ∧ sum_array_checked i32ops i32checked
      (AggArray.dictionary c3k [mkI32 10, mkI32 11, mkI32 12]) = .ok none
  ∧ min_array i32ord (AggArray.dictionary c3k [mkI32 10, mkI32 11, mkI32 12]) = none
  ∧ max_array i32ord (AggArray.dictionary c3k [mkI32 10, mkI32 11, mkI32 12]) = none
  ∧ sum_array i32ops (AggArray.primitive c3a) = none
  ∧ sum_array_checked i32ops i32checked (AggArray.primitive c3a) = .ok none
  ∧ min_array i32ord (AggArray.primitive c3a) = none
  ∧ max_array i32ord (AggArray.primitive c3a) = none :=
  all_null_returns_none i32ops i32checked i32ord i32ops.add i32ops.zero 32 c3a c3n
    c3b c3bin c3k [mkI32 10, mkI32 11, mkI32 12]
    (by decide) (by decide) (by decide) (by decide) (by decide)

/-- C4: the wrapping sum never fails and equals the two's complement wrap of
the exact mathematical sum of the valid elements (so overflow wraps
modulo 2^32). -/
theorem sum_wraps_modular (a : PrimitiveArray I32) (hwf : a.wf = true) :
    (sum i32ops a).map I32.val
      = if a.null_count = a.len then none else some (wrap32 (intSum a.validVals)) := by
  rw [sum_eq_sumSpec i32_lawful a hwf]
  unfold sumSpec
  by_cases h : a.null_count = a.len
  · rw [if_pos h, if_pos h]
    rfl
  · rw [if_neg h, if_neg h]
    exact congrArg some (msum_i32 a.validVals)

def c4arr : PrimitiveArray I32 := ⟨[⟨2147483647, by decide⟩, ⟨1, by decide⟩], none⟩

theorem sum_wraps_modular_witness :
    (sum i32ops c4arr).map I32.val = some (-2147483648) := by
  have h := sum_wraps_modular c4arr (by decide)
  rw [h]
  decide

/-- C5: the checked sum fails with the Overflow condition exactly when some
left-to-right partial sum of the valid elements (from the zero seed) leaves
the i32 range; on failure only the error is surfaced, and otherwise it
returns the exact sum of all valid elements. -/
theorem sum_checked_overflow_iff (a : PrimitiveArray I32) (hwf : a.wf = true) :
    (sum_checked i32ops i32checked a = .error .overflow
        ↔ ∃ k, k < a.validVals.length ∧ ¬ inRange32 (intSum (a.validVals.take (k + 1))))
  ∧ (a.null_count = a.len → sum_checked i32ops i32checked a = .ok none)
  ∧ (¬ a.null_count = a.len →
      (∀ k, k < a.validVals.length → inRange32 (intSum (a.validVals.take (k + 1)))) →
      ∃ r : I32, sum_checked i32ops i32checked a = .ok (some r)
        ∧ r.val = intSum a.validVals) := by
  have hsc := sum_checked_eq i32ops i32checked a hwf
  have hz : ∀ l : List I32, (i32ops.zero).val + intSum l = intSum l := by
    intro l
    show (0 : Int) + intSum l = intSum l
    exact Int.zero_add _
  by_cases h : a.null_count = a.len
  · rw [if_pos h] at hsc
    refine ⟨?_, fun _ => hsc, fun hcon _ => absurd h hcon⟩
    constructor
    · intro herr
      rw [hsc] at herr
      exact Except.noConfusion herr
    · rintro ⟨k, hk, _⟩
      have hvl := validVals_length a hwf
      rw [h] at hvl
      omega
  · rw [if_neg h] at hsc
    refine ⟨?_, fun hcon => absurd hcon h, ?_⟩
    · rw [hsc]
      constructor
      · intro herr
        cases hfold : a.validVals.foldlM i32checked.addChecked i32ops.zero with
        | ok r =>
            rw [hfold] at herr
            exact Except.noConfusion herr
        | error e =>
            cases e
            obtain ⟨k, hk, hbad⟩ :=
              (checkedFold_error_iff a.validVals i32ops.zero).mp hfold
            rw [hz] at hbad
            exact ⟨k, hk, hbad⟩
      · rintro ⟨k, hk, hbad⟩
        have herr : a.validVals.foldlM i32checked.addChecked i32ops.zero
            = .error .overflow := by
          apply (checkedFold_error_iff _ _).mpr
          refine ⟨k, hk, ?_⟩
          rw [hz]
          exact hbad
        rw [herr]
        rfl
    · intro _ hall
      obtain ⟨r, hr, hrv⟩ := checkedFold_ok a.validVals i32ops.zero (by
        intro k hk
        rw [hz]
        exact hall k hk)
      refine ⟨r, ?_, ?_⟩
      · rw [hsc, hr]
        rfl
      · rw [hrv, hz]

def c5arr : PrimitiveArray I32 :=
  ⟨[⟨2147483647, by decide⟩, ⟨5, by decide⟩, ⟨1, by decide⟩], some [true, false, true]⟩

theorem sum_checked_overflow_iff_witness :
    sum_checked i32ops i32checked c5arr = .error .overflow :=
  (sum_checked_overflow_iff c5arr (by decide)).1.mpr ⟨1, by decide, by decide⟩

/-- C6: every dictionary-aware entry point returns on a dictionary array the
same result as on the fully expanded logical array it denotes (null index
slots stay null, valid ones resolve through the values array). -/
theorem dictionary_equals_expanded {α : Type} [Inhabited α] (ops : NumOps α)
    (L : LawfulAdd ops) (cops : CheckedOps α) (o : OrdOps α)
    (keys : PrimitiveArray Nat) (vals : List α) (hwf : keys.wf = true) :
    sum_array ops (AggArray.dictionary keys vals)
        = sum_array ops (AggArray.primitive (expandDict keys vals))
  ∧ sum_array_checked ops cops (AggArray.dictionary keys vals)
        = sum_array_checked ops cops (AggArray.primitive (expandDict keys vals))
  ∧ min_array o (AggArray.dictionary keys vals)
        = min_array o (AggArray.primitive (expandDict keys vals))
  ∧ max_array o (AggArray.dictionary keys vals)
        = max_array o (AggArray.primitive (expandDict keys vals)) := by
  obtain ⟨hl, hvalv, hv⟩ := expand_acc_agree keys vals
  have hwfe := expandDict_wf keys vals hwf
  have hiter : arrayIter (dictAcc keys vals) = arrayIter (expandDict keys vals).acc :=
    arrayIter_congr _ _ hl hvalv hv
  have hnc : (dictAcc keys vals : Accessor α).null_count
      = (expandDict keys vals).null_count := rfl
  have hlen2 : (dictAcc keys vals : Accessor α).len = (expandDict keys vals).len := by
    show keys.len = _
    exact (expandDict_len keys vals).symm
  refine ⟨?_, ?_, ?_, ?_⟩
  · have harm : sum_array ops (AggArray.dictionary keys vals)
        = if (dictAcc keys vals : Accessor α).null_count
            = (dictAcc keys vals : Accessor α).len
          then none
          else some ((arrayIter (dictAcc keys vals)).foldl
            (fun s v? => match v? with | some v => ops.add s v | none => s)
            ops.zero) := rfl
    have hprim : sum_array ops (AggArray.primitive (expandDict keys vals))
        = sum ops (expandDict keys vals) := rfl
    rw [harm, hprim, sum_eq_sumSpec L _ hwfe]
    unfold sumSpec
    rw [hnc, hlen2]
    by_cases hc : (expandDict keys vals).null_count = (expandDict keys vals).len
    · rw [if_pos hc, if_pos hc]
    · rw [if_neg hc, if_neg hc]
      congr 1
      rw [foldl_skip_none, hiter, arrayIter_filterMap _ hwfe]
      rfl
  · have harm : sum_array_checked ops cops (AggArray.dictionary keys vals)
        = if (dictAcc keys vals : Accessor α).null_count
            = (dictAcc keys vals : Accessor α).len
          then .ok none
          else ((arrayIter (dictAcc keys vals)).foldlM
            (fun s v? => match v? with
              | some v => cops.addChecked s v
              | none => Except.ok s) ops.zero).map some := rfl
    have hprim : sum_array_checked ops cops (AggArray.primitive (expandDict keys vals))
        = sum_checked ops cops (expandDict keys vals) := rfl
    rw [harm, hprim, sum_checked_eq ops cops _ hwfe]
    rw [hnc, hlen2]
    by_cases hc : (expandDict keys vals).null_count = (expandDict keys vals).len
    · rw [if_pos hc, if_pos hc]
    · rw [if_neg hc, if_neg hc]
      congr 1
      rw [hiter, ← arrayIter_filterMap _ hwfe]
      exact @foldlM_skip_none α cops (arrayIter (expandDict keys vals).acc) ops.zero
  · have harm : min_array o (AggArray.dictionary keys vals)
        = min_max_helper (dictAcc keys vals) (minCmp o) := rfl
    have hprim : min_array o (AggArray.primitive (expandDict keys vals))
        = min_max_helper (expandDict keys vals).acc (minCmp o) := rfl
    rw [harm, hprim]
    exact min_max_helper_congr _ _ _ hl hvalv hv
  · have harm : max_array o (AggArray.dictionary keys vals)
        = min_max_helper (dictAcc keys vals) (maxCmp o) := rfl
    have hprim : max_array o (AggArray.primitive (expandDict keys vals))
        = min_max_helper (expandDict keys vals).acc (maxCmp o) := rfl
    rw [harm, hprim]
    exact min_max_helper_congr _ _ _ hl hvalv hv

def c6keys : PrimitiveArray Nat := ⟨[2, 7, 4], some [true, false, true]⟩

def c6vals : List I32 :=
  [mkI32 10, mkI32 11, mkI32 12, mkI32 13, mkI32 14, mkI32 15, mkI32 16, mkI32 17]

theorem dictionary_equals_expanded_witness :
    (sum_array i32ops (AggArray.dictionary c6keys c6vals)
        = sum_array i32ops (AggArray.primitive (expandDict c6keys c6vals)))
    ∧ (min_array i32ord (AggArray.dictionary c6keys c6vals)
        = min_array i32ord (AggArray.primitive (expandDict c6keys c6vals)))
    ∧ (sum_array i32ops (AggArray.dictionary c6keys c6vals)).map I32.val = some 26 :=
  ⟨(dictionary_equals_expanded i32ops i32_lawful i32checked i32ord c6keys c6vals
      (by decide)).1,
   (dictionary_equals_expanded i32ops i32_lawful i32checked i32ord c6keys c6vals
      (by decide)).2.2.1,
   by decide⟩

/-- C7: on a not-all-null integer array, each bitwise reducer is the fold of
its operator over the valid elements from its identity element — all ones
for AND, zero for OR and XOR. -/
theorem bitops_fold_identity (w : Nat) (a : PrimitiveArray Nat) (hwf : a.wf = true)
    (hnc : ¬ a.null_count = a.len) :
    bit_and w a = some (a.validVals.foldl Nat.land (allOnes w))
  ∧ bit_or a = some (a.validVals.foldl Nat.lor 0)
  ∧ bit_xor a = some (a.validVals.foldl Nat.xor 0) :=
  ⟨bit_operation_eq Nat.land (allOnes w) a hwf hnc,
   bit_operation_eq Nat.lor 0 a hwf hnc,
   bit_operation_eq Nat.xor 0 a hwf hnc⟩

def c7arr : PrimitiveArray Nat := ⟨[1, 2, 3, 4, 5], none⟩

theorem bitops_fold_identity_witness :
    (bit_and 32 c7arr = some (c7arr.validVals.foldl Nat.land (allOnes 32))
      ∧ bit_or c7arr = some (c7arr.validVals.foldl Nat.lor 0)
      ∧ bit_xor c7arr = some (c7arr.validVals.foldl Nat.xor 0))
    ∧ bit_and 32 c7arr = some 0 ∧ bit_or c7arr = some 7 ∧ bit_xor c7arr = some 1 :=
  ⟨bitops_fold_identity 32 c7arr (by decide) (by decide),
   by decide, by decide, by decide⟩

/-- C8: on a not-all-null boolean array, bool_and is true exactly when the
valid false count is zero, bool_or is true exactly when the valid true count
is nonzero, min_boolean is false exactly when some valid false exists
(defaulting to true), and max_boolean is true exactly when some valid true
exists (defaulting to false); null slots never count. -/
theorem boolean_reducer_counts (a : PrimitiveArray Bool) (hwf : a.wf = true)
    (hnc : ¬ a.null_count = a.len) :
    (bool_and a = some true ↔ false_count a = 0)
  ∧ (bool_or a = some true ↔ true_count a ≠ 0)
  ∧ (min_boolean a = if false ∈ a.validVals then some false else some true)
  ∧ (max_boolean a = if true ∈ a.validVals then some true else some false) := by
  refine ⟨?_, ?_, ?_, ?_⟩
  · unfold bool_and
    rw [if_neg hnc]
    simp
  · unfold bool_or
    rw [if_neg hnc]
    simp
  · unfold min_boolean
    rw [if_neg hnc]
    by_cases hmem : false ∈ a.validVals
    · rw [if_pos hmem]
      have hmem2 : some false ∈ arrayIter a.acc := by
        rw [← arrayIter_filterMap a hwf] at hmem
        obtain ⟨o?, ho, hoo⟩ := List.mem_filterMap.mp hmem
        have : o? = some false := hoo
        rw [← this]
        exact ho
      cases hfind : (arrayIter a.acc).find? (fun b => b == some false) with
      | none =>
          exact absurd (by simp : ((some false : Option Bool) == some false) = true)
            (List.find?_eq_none.mp hfind (some false) hmem2)
      | some y =>
          have hy : y = some false := by simpa using List.find?_some hfind
          rw [hy]
          rfl
    · rw [if_neg hmem]
      have hnone : (arrayIter a.acc).find? (fun b => b == some false) = none := by
        apply List.find?_eq_none.mpr
        intro x hx hpx
        apply hmem
        have hx2 : x = some false := by simpa using hpx
        rw [← arrayIter_filterMap a hwf]
        exact List.mem_filterMap.mpr ⟨x, hx, by rw [hx2]; rfl⟩
      rw [hnone]
      rfl
  · unfold max_boolean
    rw [if_neg hnc]
    by_cases hmem : true ∈ a.validVals
    · rw [if_pos hmem]
      have hmem2 : some true ∈ arrayIter a.acc := by
        rw [← arrayIter_filterMap a hwf] at hmem
        obtain ⟨o?, ho, hoo⟩ := List.mem_filterMap.mp hmem
        have : o? = some true := hoo
        rw [← this]
        exact ho
      cases hfind : (arrayIter a.acc).find? (fun b => b == some true) with
      | none =>
          exact absurd (by simp : ((some true : Option Bool) == some true) = true)
            (List.find?_eq_none.mp hfind (some true) hmem2)
      | some y =>
          have hy : y = some true := by simpa using List.find?_some hfind
          rw [hy]
          rfl
    · rw [if_neg hmem]
      have hnone : (arrayIter a.acc).find? (fun b => b == some true) = none := by
        apply List.find?_eq_none.mpr
        intro x hx hpx
        apply hmem
        have hx2 : x = some true := by simpa using hpx
        rw [← arrayIter_filterMap a hwf]
        exact List.mem_filterMap.mpr ⟨x, hx, by rw [hx2]; rfl⟩
      rw [hnone]
      rfl

def c8arr : PrimitiveArray Bool := ⟨[true, false, false], some [true, false, true]⟩

theorem boolean_reducer_counts_witness :
    ((bool_and c8arr = some true ↔ false_count c8arr = 0)
      ∧ (bool_or c8arr = some true ↔ true_count c8arr ≠ 0)
      ∧ (min_boolean c8arr = if false ∈ c8arr.validVals then some false else some true)
      ∧ (max_boolean c8arr = if true ∈ c8arr.validVals then some true else some false))
    ∧ min_boolean c8arr = some false ∧ max_boolean c8arr = some true :=
  ⟨boolean_reducer_counts c8arr (by decide) (by decide), by decide, by decide⟩

/-- C10: two arrays with equal length, equal validity and equal values at
every valid slot aggregate identically under the wrapping sum, the generic
min/max reducer, the bitwise reducer and the checked sum — the data buffer
contents at null positions never influence the result. -/
theorem null_values_no_influence {α : Type} [Inhabited α] (ops : NumOps α)
    (L : LawfulAdd ops) (cops : CheckedOps α) (op2 : α → α → α) (dflt : α)
    (cmp : α → α → Bool) (a b : PrimitiveArray α)
    (hwfa : a.wf = true) (hwfb : b.wf = true)
    (hlen : a.len = b.len) (hval : a.validity = b.validity)
    (hv : ∀ i, i < a.len → a.isValid i = true → a.values[i]? = b.values[i]?) :
    sum ops a = sum ops b
  ∧ min_max_helper a.acc cmp = min_max_helper b.acc cmp
  ∧ bit_operation op2 dflt a = bit_operation op2 dflt b
  ∧ sum_checked ops cops a = sum_checked ops cops b := by
  have hvv : a.validVals = b.validVals := validVals_eq_of_agree a b hwfa hlen hval hv
  have hnc : a.null_count = b.null_count := by
    unfold PrimitiveArray.null_count
    rw [hval]
  refine ⟨?_, ?_, ?_, ?_⟩
  · rw [sum_eq_sumSpec L a hwfa, sum_eq_sumSpec L b hwfb]
    unfold sumSpec
    rw [hlen, hnc, hvv]
  · rw [min_max_helper_eq a hwfa, min_max_helper_eq b hwfb, hvv]
  · by_cases hc : a.null_count = a.len
    · have hcb : b.null_count = b.len := by rw [← hnc, ← hlen]; exact hc
      unfold bit_operation
      rw [if_pos hc, if_pos hcb]
    · have hcb : ¬ b.null_count = b.len := by rw [← hnc, ← hlen]; exact hc
      rw [bit_operation_eq op2 dflt a hwfa hc, bit_operation_eq op2 dflt b hwfb hcb, hvv]
  · rw [sum_checked_eq ops cops a hwfa, sum_checked_eq ops cops b hwfb, hlen, hnc, hvv]

def c10a : PrimitiveArray I32 := ⟨[mkI32 1, mkI32 999, mkI32 3], some [true, false, true]⟩

def c10b : PrimitiveArray I32 :=
  ⟨[mkI32 1, mkI32 123456, mkI32 3], some [true, false, true]⟩

theorem null_values_no_influence_witness :
    sum i32ops c10a = sum i32ops c10b
  ∧ min_max_helper c10a.acc (minCmp i32ord) = min_max_helper c10b.acc (minCmp i32ord)
  ∧ bit_operation i32ops.add i32ops.zero c10a = bit_operation i32ops.add i32ops.zero c10b
  ∧ sum_checked i32ops i32checked c10a = sum_checked i32ops i32checked c10b :=
  null_values_no_influence i32ops i32_lawful i32checked i32ops.add i32ops.zero
    (minCmp i32ord) c10a c10b (by decide) (by decide) (by decide) (by decide)
    (by decide)

end ArrowAggregate
